import Mathlib

/-!
# Verification of the Schedule-1 calculator effect-search core

This file gives a shallow embedding of the effect-transformation function
`apply_additive`, the breadth-first search `forward_effect_search`, the cost
helper `calculate_path_cost`, the product-selection policies
(`pick_best_product` in `helpers/effect_path.py` and
`ReverseLogic.pick_best_product` in `logic/reverse_logic.py`), and the
`ReverseLogic.unmix` operation, together with theorems settling the frozen
claims about them.

Embedding conventions:

* Python `set`/`frozenset` values are modelled as canonically sorted
  duplicate-free `List String` values (`canon`).  Python iterates sets in an
  unspecified (hash-dependent) order; the model fixes that order to the sorted
  order.  Wherever a claim depends on the iteration order this is made
  explicit in the theorem.
* Python `dict`s are modelled as association lists with first-match lookup
  (`dictFind`); Python dictionaries have unique keys, which appears as a
  `Nodup` hypothesis on key lists where it matters.
* `float` prices are modelled as rationals `ℚ`.
* The shared mutable cancellation flag is modelled as the sequence of values
  the flag has at successive reads, a function `Nat → Bool`; a read counter is
  threaded through the computation.
* The Python `while queue:` loop is modelled with explicit fuel; the wrapper
  `forward_effect_search` runs the loop with fuel `2 ^ |universe| + 1`, which
  is proved sufficient (claim C9), so the out-of-fuel default is unreachable.
-/

namespace Schedule1

/-- Kernel-computable lexicographic comparison of character lists. -/
def strLeB : List Char → List Char → Bool
  | [], _ => true
  | _ :: _, [] => false
  | a :: as, b :: bs =>
    if a.toNat < b.toNat then true
    else if b.toNat < a.toNat then false
    else strLeB as bs

/-- A kernel-computable total order on strings (lexicographic on code
points), used to fix the iteration order of modelled Python sets. -/
def strLe (a b : String) : Prop := strLeB a.data b.data = true

instance : DecidableRel strLe := fun a b => by unfold strLe; infer_instance

/-- Canonical representation of a Python `set`/`frozenset` of strings:
duplicates removed, sorted by `strLe`.  The sorted order stands in for
Python's unspecified set-iteration order. -/
def canon (l : List String) : List String := List.insertionSort strLe l.dedup

-- ---------------------------------------------------------------------------
-- Data model (`helpers/effect_path.py`, `models`)
-- ---------------------------------------------------------------------------

/-- `class Additive` from `helpers/effect_path.py`: name, granted effects and
price.  `Effect` is the Python attribute that may be a list or a single
string; the model uses the list form (a single string is a one-element
list). -/
structure Additive where
  Name : String
  Effect : List String
  Price : ℚ
deriving DecidableEq, Repr

/-- A product record as consumed by the search layer: base effects and price
(the fields read by `pick_best_product`, `calculate_path_cost` and
`extract_effects`). -/
structure Product where
  Effect : List String
  Price : ℚ
deriving DecidableEq, Repr

/-- First-match lookup in an association list, modelling Python `dict.get`. -/
def dictFind {α : Type} (m : List (String × α)) (k : String) : Option α :=
  (m.find? (fun p => p.1 == k)).map Prod.snd

/-- Nested replacement rules: additive name ↦ (source effect ↦ target
effect), modelling the Python `nested_rules: Dict[str, Dict[str, str]]`. -/
abbrev NestedRules := List (String × List (String × String))

/-- Lookup of one additive's rule for a source effect
(`rules[old]` after `rules = nested_rules.get(additive_name, {})`). -/
def ruleFor (rules : List (String × String)) (old : String) : Option String :=
  dictFind rules old

-- ---------------------------------------------------------------------------
-- apply_additive (`helpers/effect_path.py`, lines 22-78)
-- ---------------------------------------------------------------------------

/-- Accumulator of the first replacement pass of `apply_additive`:
`planned_removals`, `planned_additions` and the `skipped` list. -/
structure Pass1 where
  removals : List String
  additions : List String
  skipped : List (String × String)
deriving DecidableEq, Repr

/-- One step of the first pass: Python lines 44-58.  `cur` is the full
current effect set (membership tests are against it), `old` the effect
under consideration. -/
def pass1Step (rules : List (String × String)) (cur : List String)
    (acc : Pass1) (old : String) : Pass1 :=
  match ruleFor rules old with
  | none => acc
  | some new =>
    if new ∉ cur ∧ new ∉ acc.additions then
      { acc with removals := acc.removals ++ [old], additions := acc.additions ++ [new] }
    else
      { acc with skipped := acc.skipped ++ [(old, new)] }

/-- The first replacement pass of `apply_additive`
(`for old in list(current_effects): ...`), folded over the iteration order
`iter` of the current effect set. -/
def pass1 (rules : List (String × String)) (cur iter : List String) : Pass1 :=
  iter.foldl (pass1Step rules cur) ⟨[], [], []⟩

/-- Re-application of the skipped rules in reverse order of skipping
(`for old, new in reversed(skipped): ...`): remove the source (first
occurrence, as `list.remove`) and append the target whenever the source is
present and the target absent. -/
def reapplyStep (l : List String) (p : String × String) : List String :=
  if p.1 ∈ l ∧ p.2 ∉ l then (l.erase p.1) ++ [p.2] else l

def reapplySkipped (skipped : List (String × String)) (l : List String) : List String :=
  skipped.reverse.foldl reapplyStep l

/-- The final grant loop of `apply_additive` (`for ae in additive_effects:`):
append each granted effect not yet present while strictly below
`max_effects`. -/
def addGrants (grants : List String) (max_effects : Nat) (l : List String) : List String :=
  grants.foldl (fun l ae => if ae ∉ l ∧ l.length < max_effects then l ++ [ae] else l) l

/-- `new_effects_list = [e for e in current_effects if e not in
planned_removals] + list(planned_additions)`. -/
def interList (current_effects : List String) (p : Pass1) : List String :=
  (current_effects.filter (fun e => e ∉ p.removals)) ++ p.additions

/-- `apply_additive(current_effects, additive_name, additive_obj,
nested_rules, max_effects)` from `helpers/effect_path.py`.  The current
effect set is a canonical list and is also its own iteration order; the
grant set `set(additive_obj.Effect)` is iterated in canonical order. -/
def apply_additive (current_effects : List String) (additive_name : String)
    (additive_obj : Additive) (nested_rules : NestedRules) (max_effects : Nat) :
    List String :=
  let rules := (dictFind nested_rules additive_name).getD []
  let additive_effects := canon additive_obj.Effect
  let p := pass1 rules current_effects current_effects
  let after_skipped := reapplySkipped p.skipped (interList current_effects p)
  canon (addGrants additive_effects max_effects after_skipped)

/-- The effect list of `apply_additive` just before the grant loop: both
replacement passes applied, grants not yet considered. -/
def preGrant (current_effects : List String) (additive_name : String)
    (nested_rules : NestedRules) : List String :=
  let rules := (dictFind nested_rules additive_name).getD []
  let p := pass1 rules current_effects current_effects
  reapplySkipped p.skipped (interList current_effects p)

/-- Application of one additive drawn from the pool by name, as the search
and its path replay do (`additives.get(addy)` followed by
`apply_additive`). -/
def applyByName (additives : List (String × Additive)) (nested_rules : NestedRules)
    (max_effects : Nat) (s : List String) (addy : String) : List String :=
  match dictFind additives addy with
  | some obj => apply_additive s addy obj nested_rules max_effects
  | none => s

/-- Iterated application of a sequence of pool additives, starting from a
canonical effect set: the reachability notion of the search's state graph. -/
def applySeq (additives : List (String × Additive)) (nested_rules : NestedRules)
    (max_effects : Nat) (s : List String) (seq : List String) : List String :=
  seq.foldl (applyByName additives nested_rules max_effects) s

/-- The goal test `desired_effects.issubset(current_effects)`. -/
def goalMet (desired_effects cur : List String) : Bool :=
  desired_effects.all (fun d => d ∈ cur)

-- ---------------------------------------------------------------------------
-- forward_effect_search (`helpers/effect_path.py`, lines 81-142)
-- ---------------------------------------------------------------------------

/-- A queue element: `(frozenset of effects, tuple of additive names)`,
with the effect set in canonical form. -/
abbrev Entry := List String × List String

/-- The `visited` dictionary: canonical effect set ↦ recorded depth. -/
abbrev Visited := List (List String × Nat)

/-- Lookup in the `visited` dictionary. -/
def vLookup (v : Visited) (s : List String) : Option Nat :=
  (v.find? (fun p => p.1 == s)).map Prod.snd

/-- Assignment `visited[s] = d` (replaces any previous binding). -/
def vInsert (v : Visited) (s : List String) (d : Nat) : Visited :=
  (s, d) :: v.filter (fun p => ¬ (p.1 == s))

/-- One additive considered during frontier expansion (the body of
`for addy_name, additive_obj in additives.items():`). -/
def expandStep (nested_rules : NestedRules) (max_effects : Nat)
    (cur seq : List String) (acc : List Entry × Visited) (p : String × Additive) :
    List Entry × Visited :=
  let new_effects := apply_additive cur p.1 p.2 nested_rules max_effects
  match vLookup acc.2 new_effects with
  | none =>
    (acc.1 ++ [(new_effects, seq ++ [p.1])], vInsert acc.2 new_effects (seq.length + 1))
  | some d =>
    if seq.length + 1 < d then
      (acc.1 ++ [(new_effects, seq ++ [p.1])], vInsert acc.2 new_effects (seq.length + 1))
    else acc

/-- Frontier expansion: apply every additive of the pool, in pool order, to
the dequeued state, enqueueing unvisited results. -/
def expand (additives : List (String × Additive)) (nested_rules : NestedRules)
    (max_effects : Nat) (cur seq : List String) (v : Visited) :
    List Entry × Visited :=
  additives.foldl (expandStep nested_rules max_effects cur seq) ([], v)

/-- One step of the path reconstruction in the goal branch of
`forward_effect_search`. -/
def replayStep (additives : List (String × Additive)) (nested_rules : NestedRules)
    (max_effects : Nat) (acc : List String × List (String × List String))
    (addy : String) : List String × List (String × List String) :=
  -- the `none` case of `applyByName` is unreachable here: the search only
  -- replays names drawn from the pool (`additives.get(addy)` succeeds)
  let effects := applyByName additives nested_rules max_effects acc.1 addy
  (effects, acc.2 ++ [(addy, effects)])

/-- Path reconstruction: re-run `apply_additive` along the additive sequence
from the base effects, recording each intermediate effect set. -/
def replay (additives : List (String × Additive)) (nested_rules : NestedRules)
    (max_effects : Nat) (start seq : List String) : List (String × List String) :=
  (seq.foldl (replayStep additives nested_rules max_effects) (start, [])).2

/-- The `while queue:` loop of `forward_effect_search`, with explicit fuel
(first `Nat` argument) and a counter (second argument) indexing the reads of
the cancellation flag.  Result: `none` when the fuel is exhausted (proved
unreachable for the fuel used by `forward_effect_search`), otherwise
`some (number of flag reads performed, search result)`, where the search
result is `none` for both exhaustion of the queue and cancellation, exactly
as the Python function returns `None` for both. -/
def bfsLoop (additives : List (String × Additive)) (nested_rules : NestedRules)
    (desired_effects : List String) (max_effects max_depth : Nat)
    (cancel : Nat → Bool) (start : List String) :
    Nat → Nat → List Entry → Visited →
    Option (Nat × Option (List (String × List String)))
  | 0, _, _, _ => none
  | fuel + 1, polls, queue, visited =>
    match queue with
    | [] => some (polls, none)
    | (cur, seq) :: rest =>
      if cancel polls then some (polls + 1, none)
      else if goalMet desired_effects cur then
        some (polls + 1, some (replay additives nested_rules max_effects start seq))
      else if max_depth ≤ seq.length then
        bfsLoop additives nested_rules desired_effects max_effects max_depth cancel start
          fuel (polls + 1) rest visited
      else
        let ev := expand additives nested_rules max_effects cur seq visited
        bfsLoop additives nested_rules desired_effects max_effects max_depth cancel start
          fuel (polls + 1) (rest ++ ev.1) ev.2

/-- Every effect that can ever appear in a state of the search: the base
effects, all granted effects, and all rule targets. -/
def searchUniverse (additives : List (String × Additive)) (nested_rules : NestedRules)
    (product_effects : List String) : List String :=
  canon (product_effects ++ (additives.flatMap fun p => p.2.Effect) ++
    nested_rules.flatMap (fun p => p.2.map Prod.snd))

/-- Fuel sufficient for the search loop: one more than the number of subsets
of the effect universe (claim C9 proves sufficiency). -/
def searchFuel (additives : List (String × Additive)) (nested_rules : NestedRules)
    (product_effects : List String) : Nat :=
  2 ^ (searchUniverse additives nested_rules product_effects).length + 1

/-- `forward_effect_search(product_effects, desired_effects, additives,
nested_rules, max_effects, max_depth, cancel_flag)`.  Returns the number of
cancellation-flag reads performed together with the Python return value
(`some path` on success, `none` for no-path or cancellation). -/
def forward_effect_search (product_effects desired_effects : List String)
    (additives : List (String × Additive)) (nested_rules : NestedRules)
    (max_effects max_depth : Nat) (cancel : Nat → Bool) :
    Nat × Option (List (String × List String)) :=
  (bfsLoop additives nested_rules desired_effects max_effects max_depth cancel
      (canon product_effects)
      (searchFuel additives nested_rules product_effects) 0
      [(canon product_effects, [])] [(canon product_effects, 0)]).getD (0, none)

-- ---------------------------------------------------------------------------
-- calculate_path_cost and pick_best_product (`helpers/effect_path.py`)
-- ---------------------------------------------------------------------------

/-- `calculate_path_cost(product_name, path, products, additives)`: base
product price plus the price of every additive of the path found in the
additive catalog. -/
def calculate_path_cost (product_name : String)
    (path : List (String × List String)) (products : List (String × Product))
    (additives : List (String × Additive)) : ℚ :=
  let base :=
    match dictFind products product_name with
    | some p => p.Price
    | none => 0
      -- `products[product_name]` would raise in Python; the call sites only
      -- pass names of catalog products
  path.foldl
    (fun total step =>
      match dictFind additives step.1 with
      | some obj => total + obj.Price
      | none => total) base

/-- `pick_best_product(products, additives, desired_effects, nested_rules,
max_effects, max_depth)` from `helpers/effect_path.py`: run the search for
every product and keep the shortest path, breaking ties by lower total cost.
The running optimum `(best_product, best_path, best_cost)` is `none` while
no product has yielded a path (the Python initial state
`best_length = best_cost = inf`). -/
def pickStep (products : List (String × Product))
    (additives : List (String × Additive)) (desired_effects : List String)
    (nested_rules : NestedRules) (max_effects max_depth : Nat)
    (best : Option (String × List (String × List String) × ℚ))
    (p : String × Product) : Option (String × List (String × List String) × ℚ) :=
  let product_effects := p.2.Effect
  match (forward_effect_search product_effects desired_effects additives
      nested_rules max_effects max_depth (fun _ => false)).2 with
  | none => best
  | some path =>
    let total_cost := calculate_path_cost p.1 path products additives
    match best with
    | none => some (p.1, path, total_cost)
    | some best' =>
      if path.length < best'.2.1.length ∨
          (path.length = best'.2.1.length ∧ total_cost < best'.2.2) then
        some (p.1, path, total_cost)
      else best

def pick_best_product (products : List (String × Product))
    (additives : List (String × Additive)) (desired_effects : List String)
    (nested_rules : NestedRules) (max_effects max_depth : Nat) :
    Option (String × List (String × List String) × ℚ) :=
  products.foldl
    (pickStep products additives desired_effects nested_rules max_effects max_depth)
    none

-- ---------------------------------------------------------------------------
-- ReverseLogic (`logic/reverse_logic.py`)
-- ---------------------------------------------------------------------------

/-- `helpers/effect_utils.extract_effects` on a product record: the set of
its base effects (the list-valued branch of the Python function; a single
scalar effect is a one-element list). -/
def extract_effects (p : Product) : List String := canon p.Effect

/-- Outcome of `ReverseLogic.unmix`: the three error dictionaries and the
success dictionary.  `α` is the (opaque) payload computed by the injected
`PricingManager` together with `unmix`'s rounding post-processing. -/
inductive UnmixOutcome (α : Type) where
  | unknownProduct (name : String)
  | cancelled
  | noPath
  | success (steps : List (String × List String)) (final_effects : List String)
      (price : α)
deriving DecidableEq

/-- `ReverseLogic.unmix(product_name, desired_effects)`.  `pricing` abstracts
`PricingManager.calculate_price` plus the rounding/renaming post-processing
(it receives the product name, the additive names of the path, and the final
effects).  `cancel` is the sequence of values of `self.cancel_requested` at
successive reads after the initial `reset_cancel_flag()`. -/
def unmix {α : Type} (pricing : String → List String → List String → α)
    (products : List (String × Product)) (additives : List (String × Additive))
    (nested_rules : NestedRules) (cancel : Nat → Bool)
    (product_name : String) (desired_effects : List String) : UnmixOutcome α :=
  match dictFind products product_name with
  | none => .unknownProduct product_name
  | some product =>
    let base_effects := extract_effects product
    let r := forward_effect_search base_effects desired_effects additives
      nested_rules 8 20 cancel
    if cancel r.1 then .cancelled
    else
      match r.2 with
      | none => .noPath
      | some [] => .noPath
        -- Python `if not path:` also takes the no-path error branch when the
        -- search succeeds with the empty path
      | some steps =>
        let final_eff := (steps.getLastD ("", [])).2
        .success steps final_eff (pricing product_name (steps.map Prod.fst) final_eff)

/-- Outcome of `ReverseLogic.pick_best_product`. -/
inductive PickOutcome (α : Type) where
  | noProduct
  | cancelled
  | success (product : String) (steps : List (String × List String))
      (final_effects : List String) (price : α)
deriving DecidableEq

/-- The direct-match selection of `ReverseLogic.pick_best_product`: collect
the products whose base effects contain all desired effects and keep the one
with the fewest base effects (Python builds the list, stable-sorts it by
base-effect count and takes the head: the earliest product with minimal
count). -/
def directMatch (products : List (String × Product)) (desired_effects : List String) :
    Option (String × List String) :=
  products.foldl
    (fun acc p =>
      let base := extract_effects p.2
      if desired_effects.all (fun d => d ∈ base) then
        match acc with
        | none => some (p.1, base)
        | some b => if base.length < b.2.length then some (p.1, base) else acc
      else acc) none

/-- `ReverseLogic.pick_best_product(desired_effects)`.  The search loop
threads the running best `(product, path)` — the comparison is on path
length only — together with the cancellation-flag read counter and a flag
recording that a cancellation was observed (Python returns at once; later
products are then not examined). -/
def reverseLogic_pick_best_product {α : Type}
    (pricing : String → List String → List String → α)
    (products : List (String × Product)) (additives : List (String × Additive))
    (nested_rules : NestedRules) (cancel : Nat → Bool)
    (desired_effects : List String) : PickOutcome α :=
  match directMatch products desired_effects with
  | some d =>
    .success d.1 [] d.2 (pricing d.1 [] d.2)
  | none =>
    let st := products.foldl
      (fun (st : Nat × Bool × Option (String × List (String × List String))) p =>
        if st.2.1 then st
        else
          let base_eff := extract_effects p.2
          if base_eff.isEmpty then st
            -- `if not base_eff: continue`
          else
            let r := forward_effect_search base_eff desired_effects additives
              nested_rules 8 20 (fun n => cancel (st.1 + n))
            let polls := st.1 + r.1
            if cancel polls then (polls + 1, true, st.2.2)
            else
              match r.2 with
              | some (s :: teps) =>
                -- `if path:` (a non-empty path)
                match st.2.2 with
                | none => (polls + 1, false, some (p.1, s :: teps))
                | some b =>
                  if (s :: teps).length < b.2.length then
                    (polls + 1, false, some (p.1, s :: teps))
                  else (polls + 1, false, st.2.2)
              | _ => (polls + 1, false, st.2.2))
      (0, false, none)
    if st.2.1 then .cancelled
    else
      match st.2.2 with
      | none => .noProduct
      | some b =>
        let final_eff := (b.2.getLastD ("", [])).2
        .success b.1 b.2 final_eff (pricing b.1 (b.2.map Prod.fst) final_eff)

-- ---------------------------------------------------------------------------
-- Verification predicates
-- ---------------------------------------------------------------------------

/-- A list in the canonical form produced by `canon`. -/
def IsCanon (l : List String) : Prop := l.Sorted strLe ∧ l.Nodup

/-- Invariant of the first-pass accumulator of `apply_additive`.  `cur` is
the current effect set, `remaining` the part of the iteration still to be
processed, `rules` the additive's replacement rules. -/
structure Pass1Ok (rules : List (String × String)) (cur remaining : List String)
    (a : Pass1) : Prop where
  addNodup : a.additions.Nodup
  addNotCur : ∀ x ∈ a.additions, x ∉ cur
  addTarget : ∀ x ∈ a.additions, x ∈ rules.map Prod.snd
  lenEq : a.removals.length = a.additions.length
  remCur : ∀ x ∈ a.removals, x ∈ cur
  remNodup : a.removals.Nodup
  remFresh : ∀ x ∈ a.removals, x ∉ remaining
  skipTarget : ∀ p ∈ a.skipped, p.2 ∈ rules.map Prod.snd

/-- Loop invariant of `bfsLoop`, relating the queue and the visited map.
`U` is the effect universe and `start` the canonical start state. -/
structure BfsInv (additives : List (String × Additive)) (nested_rules : NestedRules)
    (desired_effects : List String) (max_effects max_depth : Nat)
    (start U : List String) (q : List Entry) (v : Visited) : Prop where
  vKeysNodup : (v.map Prod.fst).Nodup
  vCanon : ∀ p ∈ v, IsCanon p.1 ∧ ∀ x ∈ p.1, x ∈ U
  vStart : vLookup v start = some 0
  entries : ∀ e ∈ q,
      e.1 = applySeq additives nested_rules max_effects start e.2 ∧
      (∀ a ∈ e.2, a ∈ additives.map Prod.fst) ∧
      vLookup v e.1 = some e.2.length ∧ e.2.length ≤ max_depth
  qSorted : q.Pairwise (fun e1 e2 => e1.2.length ≤ e2.2.length)
  qStatesNodup : (q.map Prod.fst).Nodup
  vBound : ∀ s d, vLookup v s = some d → ∀ e ∈ q, d ≤ e.2.length + 1
  closed : ∀ s d, vLookup v s = some d →
      (∃ σ, (s, σ) ∈ q) ∨
      (goalMet desired_effects s = false ∧
        (d < max_depth → ∀ p ∈ additives,
          ∃ d', vLookup v (apply_additive s p.1 p.2 nested_rules max_effects) = some d' ∧
            d' ≤ d + 1))

/-- The set of (finite) effect sets recorded in the visited map. -/
def visitedSets (v : Visited) : Finset (Finset String) :=
  (v.map (fun p => p.1.toFinset)).toFinset

/-- The number of subsets of the universe `U` not yet visited: the measure
that bounds the number of insertions the search can still perform. -/
def unvisitedCount (U : List String) (v : Visited) : Nat :=
  ((U.toFinset.powerset).filter (fun t => t ∉ visitedSets v)).card

-- ---------------------------------------------------------------------------
-- Basic lemmas: the string order and canonical sets
-- ---------------------------------------------------------------------------

theorem strLeB_total : ∀ as bs : List Char, strLeB as bs = true ∨ strLeB bs as = true := by
  intro as
  induction as with
  | nil => intro bs; left; rfl
  | cons a as ih =>
    intro bs
    cases bs with
    | nil => right; rfl
    | cons b bs =>
      by_cases h1 : a.toNat < b.toNat
      · left; simp [strLeB, h1]
      · by_cases h2 : b.toNat < a.toNat
        · right; simp [strLeB, h2]
        · rcases ih bs with h | h
          · left; simp [strLeB, h1, h2, h]
          · right; simp [strLeB, h1, h2, h]

theorem strLeB_trans : ∀ as bs cs : List Char,
    strLeB as bs = true → strLeB bs cs = true → strLeB as cs = true := by
  intro as
  induction as with
  | nil => intro bs cs _ _; rfl
  | cons a as ih =>
    intro bs cs h1 h2
    cases bs with
    | nil => simp [strLeB] at h1
    | cons b bs =>
      cases cs with
      | nil => simp [strLeB] at h2
      | cons c cs =>
        simp only [strLeB] at h1 h2 ⊢
        by_cases hab : a.toNat < b.toNat
        · by_cases hbc : b.toNat < c.toNat
          · simp [Nat.lt_trans hab hbc]
          · by_cases hcb : c.toNat < b.toNat
            · simp [strLeB, hbc, hcb] at h2
            · have : b.toNat = c.toNat := Nat.le_antisymm (Nat.le_of_not_lt hcb) (Nat.le_of_not_lt hbc)
              simp [this ▸ hab]
        · by_cases hba : b.toNat < a.toNat
          · simp [hab, hba] at h1
          · have hab' : a.toNat = b.toNat := Nat.le_antisymm (Nat.le_of_not_lt hba) (Nat.le_of_not_lt hab)
            by_cases hbc : b.toNat < c.toNat
            · simp [hab' ▸ hbc]
            · by_cases hcb : c.toNat < b.toNat
              · simp [strLeB, hbc, hcb] at h2
              · have hbc' : b.toNat = c.toNat := Nat.le_antisymm (Nat.le_of_not_lt hcb) (Nat.le_of_not_lt hbc)
                have hac : ¬ a.toNat < c.toNat := by omega
                have hca : ¬ c.toNat < a.toNat := by omega
                simp only [hac, if_false, hca, if_true, if_false]
                simp only [hab, hba] at h1
                simp only [hbc, hcb] at h2
                exact ih bs cs h1 h2

theorem chEq_of_toNat_eq {a b : Char} (h : a.toNat = b.toNat) : a = b :=
  Char.eq_of_val_eq (UInt32.eq_of_toBitVec_eq (BitVec.eq_of_toNat_eq h))

theorem strLeB_antisymm : ∀ as bs : List Char,
    strLeB as bs = true → strLeB bs as = true → as = bs := by
  intro as
  induction as with
  | nil => intro bs _ h2; cases bs with
    | nil => rfl
    | cons b bs => simp [strLeB] at h2
  | cons a as ih =>
    intro bs h1 h2
    cases bs with
    | nil => simp [strLeB] at h1
    | cons b bs =>
      simp only [strLeB] at h1 h2
      by_cases hab : a.toNat < b.toNat
      · have hba : ¬ b.toNat < a.toNat := by omega
        simp [hab, hba] at h2
      · by_cases hba : b.toNat < a.toNat
        · simp [hab, hba] at h1
        · have : a.toNat = b.toNat := Nat.le_antisymm (Nat.le_of_not_lt hba) (Nat.le_of_not_lt hab)
          have ha : a = b := chEq_of_toNat_eq this
          subst ha
          simp [hab, hba] at h1 h2
          rw [ih bs h1 h2]

theorem strLe_total (a b : String) : strLe a b ∨ strLe b a := strLeB_total a.data b.data

theorem strLe_trans {a b c : String} (h1 : strLe a b) (h2 : strLe b c) : strLe a c :=
  strLeB_trans a.data b.data c.data h1 h2

theorem strLe_antisymm {a b : String} (h1 : strLe a b) (h2 : strLe b a) : a = b := by
  have h : a.data = b.data := strLeB_antisymm a.data b.data h1 h2
  cases a
  cases b
  exact congrArg String.mk h

instance : IsTotal String strLe := ⟨strLe_total⟩
instance : IsTrans String strLe := ⟨fun _ _ _ => strLe_trans⟩
instance : IsAntisymm String strLe := ⟨fun _ _ => strLe_antisymm⟩

theorem canon_nodup (l : List String) : (canon l).Nodup :=
  ((List.perm_insertionSort strLe l.dedup).nodup_iff).mpr l.nodup_dedup

theorem canon_sorted (l : List String) : (canon l).Sorted strLe :=
  List.sorted_insertionSort strLe l.dedup

theorem mem_canon {a : String} {l : List String} : a ∈ canon l ↔ a ∈ l := by
  unfold canon
  rw [(List.perm_insertionSort strLe l.dedup).mem_iff, List.mem_dedup]

theorem canon_length_le (l : List String) : (canon l).length ≤ l.length := by
  unfold canon
  rw [(List.perm_insertionSort strLe l.dedup).length_eq]
  exact l.dedup_sublist.length_le

theorem canon_length_of_nodup {l : List String} (h : l.Nodup) :
    (canon l).length = l.length := by
  unfold canon
  rw [(List.perm_insertionSort strLe l.dedup).length_eq, List.dedup_eq_self.mpr h]

/-- Sorted duplicate-free lists with the same members are equal; this makes
`canon` a canonical form, so canonical lists are determined by their
underlying finite set. -/
theorem canon_ext {l1 l2 : List String} (h1s : l1.Sorted strLe) (h1n : l1.Nodup)
    (h2s : l2.Sorted strLe) (h2n : l2.Nodup) (h : ∀ a, a ∈ l1 ↔ a ∈ l2) : l1 = l2 := by
  refine List.eq_of_perm_of_sorted ?_ h1s h2s
  refine List.perm_of_nodup_nodup_toFinset_eq h1n h2n ?_
  ext a
  simp [List.mem_toFinset, h a]

theorem isCanon_canon (l : List String) : IsCanon (canon l) :=
  ⟨canon_sorted l, canon_nodup l⟩

/-- Two duplicate-free lists with the same members have the same length. -/
theorem nodup_length_eq {α : Type} [DecidableEq α] {l1 l2 : List α}
    (h1 : l1.Nodup) (h2 : l2.Nodup) (h : ∀ x, x ∈ l1 ↔ x ∈ l2) :
    l1.length = l2.length :=
  (List.perm_of_nodup_nodup_toFinset_eq h1 h2 (by ext x; simp [h x])).length_eq

-- ---------------------------------------------------------------------------
-- Lemmas about the replacement passes and grants of apply_additive
-- ---------------------------------------------------------------------------

theorem ruleFor_target {rules : List (String × String)} {o n : String}
    (h : ruleFor rules o = some n) : n ∈ rules.map Prod.snd := by
  unfold ruleFor dictFind at h
  rcases Option.map_eq_some'.mp h with ⟨p, hp, hn⟩
  exact hn ▸ List.mem_map_of_mem Prod.snd (List.mem_of_find?_eq_some hp)

theorem pass1_fold_ok (rules : List (String × String)) (cur : List String) :
    ∀ (iter : List String) (a : Pass1), iter.Nodup → (∀ x ∈ iter, x ∈ cur) →
    Pass1Ok rules cur iter a →
    Pass1Ok rules cur [] (iter.foldl (pass1Step rules cur) a) := by
  intro iter
  induction iter with
  | nil =>
    intro a _ _ ha
    exact { ha with remFresh := fun x _ => List.not_mem_nil x }
  | cons o iter ih =>
    intro a hnd hsub ha
    have hofresh : ∀ x ∈ a.removals, x ∉ iter := by
      intro x hx hmem
      exact ha.remFresh x hx (List.mem_cons_of_mem o hmem)
    have hstep : Pass1Ok rules cur iter (pass1Step rules cur a o) := by
      cases hr : ruleFor rules o with
      | none =>
        have he : pass1Step rules cur a o = a := by simp [pass1Step, hr]
        rw [he]
        exact { ha with remFresh := hofresh }
      | some n =>
        by_cases hcond : n ∉ cur ∧ n ∉ a.additions
        · have he : pass1Step rules cur a o =
              { a with removals := a.removals ++ [o], additions := a.additions ++ [n] } := by
            simp only [pass1Step, hr]
            rw [if_pos hcond]
          rw [he]
          refine ⟨?_, ?_, ?_, ?_, ?_, ?_, ?_, ha.skipTarget⟩
          · rw [List.nodup_append]
            exact ⟨ha.addNodup, List.nodup_singleton n,
              fun x hx hx' => hcond.2 ((List.mem_singleton.mp hx') ▸ hx)⟩
          · intro x hx
            rcases List.mem_append.mp hx with hx | hx
            · exact ha.addNotCur x hx
            · exact (List.mem_singleton.mp hx) ▸ hcond.1
          · intro x hx
            rcases List.mem_append.mp hx with hx | hx
            · exact ha.addTarget x hx
            · exact (List.mem_singleton.mp hx) ▸ ruleFor_target hr
          · simp [ha.lenEq]
          · intro x hx
            rcases List.mem_append.mp hx with hx | hx
            · exact ha.remCur x hx
            · exact (List.mem_singleton.mp hx) ▸ hsub o (List.mem_cons_self o iter)
          · rw [List.nodup_append]
            exact ⟨ha.remNodup, List.nodup_singleton o,
              fun x hx hx' => ha.remFresh x hx
                ((List.mem_singleton.mp hx') ▸ List.mem_cons_self o iter)⟩
          · intro x hx
            rcases List.mem_append.mp hx with hx | hx
            · exact hofresh x hx
            · exact (List.mem_singleton.mp hx) ▸ (List.nodup_cons.mp hnd).1
        · have he : pass1Step rules cur a o =
              { a with skipped := a.skipped ++ [(o, n)] } := by
            simp only [pass1Step, hr]
            rw [if_neg hcond]
          rw [he]
          refine { ha with remFresh := hofresh, skipTarget := ?_ }
          intro p hp
          rcases List.mem_append.mp hp with hp | hp
          · exact ha.skipTarget p hp
          · rw [List.mem_singleton.mp hp]
            exact ruleFor_target hr
    exact ih (pass1Step rules cur a o) (List.nodup_cons.mp hnd).2
      (fun x hx => hsub x (List.mem_cons_of_mem o hx)) hstep

/-- The first pass over the whole (duplicate-free) current effect set
satisfies the accumulator invariant. -/
theorem pass1_ok {rules : List (String × String)} {cur : List String}
    (hc : cur.Nodup) : Pass1Ok rules cur [] (pass1 rules cur cur) := by
  refine pass1_fold_ok rules cur cur ⟨[], [], []⟩ hc (fun x hx => hx) ?_
  exact ⟨List.nodup_nil, by simp, by simp, rfl, by simp, List.nodup_nil,
    by simp, by simp⟩

theorem interList_nodup {rules : List (String × String)} {cur : List String}
    {a : Pass1} (hc : cur.Nodup) (ha : Pass1Ok rules cur [] a) :
    (interList cur a).Nodup := by
  unfold interList
  rw [List.nodup_append]
  refine ⟨hc.filter _, ha.addNodup, ?_⟩
  intro x hx hx'
  exact ha.addNotCur x hx' (List.mem_of_mem_filter hx)

theorem interList_length {rules : List (String × String)} {cur : List String}
    {a : Pass1} (hc : cur.Nodup) (ha : Pass1Ok rules cur [] a) :
    (interList cur a).length = cur.length := by
  unfold interList
  rw [List.length_append]
  have hsplit := @List.length_eq_length_filter_add _ cur
    (fun e => decide (e ∉ a.removals))
  have hmemeq : (cur.filter (fun e => ! decide (e ∉ a.removals))).length
      = a.removals.length := by
    refine nodup_length_eq (hc.filter _) ha.remNodup ?_
    intro x
    simp only [List.mem_filter, Bool.not_eq_true', decide_eq_false_iff_not,
      Decidable.not_not]
    constructor
    · exact fun h => h.2
    · exact fun h => ⟨ha.remCur x h, h⟩
  have : cur.length = (cur.filter (fun e => decide (e ∉ a.removals))).length
      + a.removals.length := by rw [hsplit, hmemeq]
  have hlen := ha.lenEq
  omega

theorem interList_mem {cur : List String} {a : Pass1} {x : String}
    (hx : x ∈ interList cur a) : x ∈ cur ∨ x ∈ a.additions := by
  unfold interList at hx
  rcases List.mem_append.mp hx with hx | hx
  · exact Or.inl (List.mem_of_mem_filter hx)
  · exact Or.inr hx

theorem reapplyFold_ok :
    ∀ (lst : List (String × String)) (l : List String), l.Nodup →
      (lst.foldl reapplyStep l).Nodup ∧
      (lst.foldl reapplyStep l).length = l.length ∧
      (∀ x ∈ lst.foldl reapplyStep l, x ∈ l ∨ x ∈ lst.map Prod.snd) := by
  intro lst
  induction lst with
  | nil => intro l hl; exact ⟨hl, rfl, fun x hx => Or.inl hx⟩
  | cons p lst ih =>
    intro l hl
    simp only [List.foldl_cons]
    have hstep : (reapplyStep l p).Nodup ∧ (reapplyStep l p).length = l.length ∧
        ∀ x ∈ reapplyStep l p, x ∈ l ∨ x = p.2 := by
      unfold reapplyStep
      by_cases hc : p.1 ∈ l ∧ p.2 ∉ l
      · rw [if_pos hc]
        refine ⟨?_, ?_, ?_⟩
        · rw [List.nodup_append]
          exact ⟨hl.erase p.1, List.nodup_singleton _,
            fun x hx hx' => hc.2 ((List.mem_singleton.mp hx') ▸ List.mem_of_mem_erase hx)⟩
        · have h1 : p.1 ∈ l := hc.1
          have := List.length_erase_of_mem h1
          have hpos : 1 ≤ l.length := List.length_pos.mpr (List.ne_nil_of_mem h1)
          simp only [List.length_append, List.length_singleton, this]
          omega
        · intro x hx
          rcases List.mem_append.mp hx with hx | hx
          · exact Or.inl (List.mem_of_mem_erase hx)
          · exact Or.inr (List.mem_singleton.mp hx)
      · rw [if_neg hc]
        exact ⟨hl, rfl, fun x hx => Or.inl hx⟩
    obtain ⟨hn, hlen, hmem⟩ := ih (reapplyStep l p) hstep.1
    refine ⟨hn, by rw [hlen, hstep.2.1], ?_⟩
    intro x hx
    rcases hmem x hx with hx' | hx'
    · rcases hstep.2.2 x hx' with h | h
      · exact Or.inl h
      · exact Or.inr (by simp [h])
    · exact Or.inr (List.mem_cons_of_mem _ hx')

theorem reapplySkipped_ok (skipped : List (String × String)) (l : List String)
    (hl : l.Nodup) :
    (reapplySkipped skipped l).Nodup ∧
    (reapplySkipped skipped l).length = l.length ∧
    (∀ x ∈ reapplySkipped skipped l, x ∈ l ∨ x ∈ skipped.map Prod.snd) := by
  unfold reapplySkipped
  obtain ⟨h1, h2, h3⟩ := reapplyFold_ok skipped.reverse l hl
  refine ⟨h1, h2, ?_⟩
  intro x hx
  rcases h3 x hx with h | h
  · exact Or.inl h
  · refine Or.inr ?_
    rcases List.mem_map.mp h with ⟨p, hp, hpx⟩
    exact hpx ▸ List.mem_map_of_mem Prod.snd (List.mem_reverse.mp hp)

theorem addGrants_ge (grants : List String) (max_effects : Nat) :
    ∀ l : List String, l.length ≤ (addGrants grants max_effects l).length := by
  unfold addGrants
  induction grants with
  | nil => intro l; exact Nat.le_refl _
  | cons g grants ih =>
    intro l
    simp only [List.foldl_cons]
    by_cases hg : g ∉ l ∧ l.length < max_effects
    · rw [if_pos hg]
      calc l.length ≤ (l ++ [g]).length := by simp
        _ ≤ _ := ih (l ++ [g])
    · rw [if_neg hg]
      exact ih l

theorem addGrants_le (grants : List String) (max_effects : Nat) :
    ∀ l : List String, l.length ≤ max_effects →
      (addGrants grants max_effects l).length ≤ max_effects := by
  unfold addGrants
  induction grants with
  | nil => intro l hl; exact hl
  | cons g grants ih =>
    intro l hl
    simp only [List.foldl_cons]
    by_cases hg : g ∉ l ∧ l.length < max_effects
    · rw [if_pos hg]
      exact ih (l ++ [g]) (by simp; omega)
    · rw [if_neg hg]
      exact ih l hl

theorem addGrants_nodup (grants : List String) (max_effects : Nat) :
    ∀ l : List String, l.Nodup → (addGrants grants max_effects l).Nodup := by
  unfold addGrants
  induction grants with
  | nil => intro l hl; exact hl
  | cons g grants ih =>
    intro l hl
    simp only [List.foldl_cons]
    by_cases hg : g ∉ l ∧ l.length < max_effects
    · rw [if_pos hg]
      refine ih (l ++ [g]) ?_
      rw [List.nodup_append]
      exact ⟨hl, List.nodup_singleton _,
        fun x hx hx' => hg.1 ((List.mem_singleton.mp hx') ▸ hx)⟩
    · rw [if_neg hg]
      exact ih l hl

theorem addGrants_mem (grants : List String) (max_effects : Nat) :
    ∀ l : List String, ∀ x ∈ addGrants grants max_effects l, x ∈ l ∨ x ∈ grants := by
  unfold addGrants
  induction grants with
  | nil => intro l x hx; exact Or.inl hx
  | cons g grants ih =>
    intro l x hx
    simp only [List.foldl_cons] at hx
    by_cases hg : g ∉ l ∧ l.length < max_effects
    · rw [if_pos hg] at hx
      rcases ih (l ++ [g]) x hx with h | h
      · rcases List.mem_append.mp h with h | h
        · exact Or.inl h
        · exact Or.inr (by simp [List.mem_singleton.mp h])
      · exact Or.inr (List.mem_cons_of_mem g h)
    · rw [if_neg hg] at hx
      rcases ih l x hx with h | h
      · exact Or.inl h
      · exact Or.inr (List.mem_cons_of_mem g h)

/-- Exactly the earliest not-yet-present grants, in consideration order, are
appended until the capacity is reached; the later ones are dropped. -/
theorem addGrants_take :
    ∀ (grants : List String), grants.Nodup → ∀ (l : List String) (m : Nat),
      addGrants grants m l = l ++ (grants.filter (fun g => g ∉ l)).take (m - l.length) := by
  intro grants
  induction grants with
  | nil => intro _ l m; simp [addGrants]
  | cons g grants ih =>
    intro hnd l m
    have hnd' : grants.Nodup := (List.nodup_cons.mp hnd).2
    have hgg : g ∉ grants := (List.nodup_cons.mp hnd).1
    show addGrants (g :: grants) m l = _
    unfold addGrants
    simp only [List.foldl_cons]
    by_cases hgl : g ∈ l
    · have hcond : ¬ (g ∉ l ∧ l.length < m) := fun h => h.1 hgl
      rw [if_neg hcond]
      have := ih hnd' l m
      unfold addGrants at this
      rw [this]
      congr 1
      have : List.filter (fun x => decide (x ∉ l)) (g :: grants)
          = List.filter (fun x => decide (x ∉ l)) grants := by
        simp [List.filter_cons, hgl]
      rw [this]
    · by_cases hlen : l.length < m
      · rw [if_pos ⟨hgl, hlen⟩]
        have := ih hnd' (l ++ [g]) m
        unfold addGrants at this
        rw [this]
        have hfeq : List.filter (fun x => decide (x ∉ l ++ [g])) grants
            = List.filter (fun x => decide (x ∉ l)) grants := by
          refine List.filter_congr ?_
          intro x hx
          have hxg : x ≠ g := fun h => hgg (h ▸ hx)
          simp [List.mem_append, hxg]
        rw [hfeq]
        have hflt : List.filter (fun x => decide (x ∉ l)) (g :: grants)
            = g :: List.filter (fun x => decide (x ∉ l)) grants := by
          simp [List.filter_cons, hgl]
        rw [hflt]
        have htk : m - l.length = (m - (l.length + 1)) + 1 := by omega
        rw [htk, List.take_succ_cons]
        simp
      · rw [if_neg (fun h => hlen h.2)]
        have := ih hnd' l m
        unfold addGrants at this
        rw [this]
        have hz : m - l.length = 0 := by omega
        simp [hz]

-- ---------------------------------------------------------------------------
-- Top-level lemmas about apply_additive
-- ---------------------------------------------------------------------------

theorem apply_additive_eq (cur : List String) (name : String) (obj : Additive)
    (nested : NestedRules) (m : Nat) :
    apply_additive cur name obj nested m =
      canon (addGrants (canon obj.Effect) m
        (reapplySkipped (pass1 ((dictFind nested name).getD []) cur cur).skipped
          (interList cur (pass1 ((dictFind nested name).getD []) cur cur)))) := rfl

theorem apply_additive_isCanon (cur : List String) (name : String) (obj : Additive)
    (nested : NestedRules) (m : Nat) :
    IsCanon (apply_additive cur name obj nested m) := isCanon_canon _

/-- The transformation never shrinks a (duplicate-free) effect set. -/
theorem apply_additive_length_ge {cur : List String} (hc : cur.Nodup)
    (name : String) (obj : Additive) (nested : NestedRules) (m : Nat) :
    cur.length ≤ (apply_additive cur name obj nested m).length := by
  rw [apply_additive_eq]
  set rules := (dictFind nested name).getD [] with hrules
  have hok := @pass1_ok rules cur hc
  have hint_nd := interList_nodup hc hok
  have hint_len := interList_length hc hok
  obtain ⟨hre_nd, hre_len, _⟩ :=
    reapplySkipped_ok (pass1 rules cur cur).skipped (interList cur (pass1 rules cur cur)) hint_nd
  have hag_nd := addGrants_nodup (canon obj.Effect) m _ hre_nd
  rw [canon_length_of_nodup hag_nd]
  calc cur.length = (interList cur (pass1 rules cur cur)).length := hint_len.symm
    _ = (reapplySkipped (pass1 rules cur cur).skipped
          (interList cur (pass1 rules cur cur))).length := hre_len.symm
    _ ≤ _ := addGrants_ge (canon obj.Effect) m _

/-- The transformation respects the capacity bound. -/
theorem apply_additive_length_le {cur : List String} (hc : cur.Nodup)
    {m : Nat} (hm : cur.length ≤ m) (name : String) (obj : Additive)
    (nested : NestedRules) :
    (apply_additive cur name obj nested m).length ≤ m := by
  rw [apply_additive_eq]
  set rules := (dictFind nested name).getD [] with hrules
  have hok := @pass1_ok rules cur hc
  have hint_nd := interList_nodup hc hok
  have hint_len := interList_length hc hok
  obtain ⟨hre_nd, hre_len, _⟩ :=
    reapplySkipped_ok (pass1 rules cur cur).skipped (interList cur (pass1 rules cur cur)) hint_nd
  have hag_nd := addGrants_nodup (canon obj.Effect) m _ hre_nd
  rw [canon_length_of_nodup hag_nd]
  refine addGrants_le (canon obj.Effect) m _ ?_
  rw [hre_len, hint_len]
  exact hm

/-- Every effect of the transformed set comes from the input set, from a rule
target of the applied additive, or from its granted effects. -/
theorem apply_additive_mem {cur : List String} (hc : cur.Nodup)
    {name : String} {obj : Additive} {nested : NestedRules} {m : Nat} {x : String}
    (hx : x ∈ apply_additive cur name obj nested m) :
    x ∈ cur ∨ x ∈ ((dictFind nested name).getD []).map Prod.snd ∨ x ∈ obj.Effect := by
  rw [apply_additive_eq] at hx
  set rules := (dictFind nested name).getD [] with hrules
  have hok := @pass1_ok rules cur hc
  have hint_nd := interList_nodup hc hok
  obtain ⟨_, _, hre_mem⟩ :=
    reapplySkipped_ok (pass1 rules cur cur).skipped (interList cur (pass1 rules cur cur)) hint_nd
  rcases addGrants_mem (canon obj.Effect) m _ x (mem_canon.mp hx) with h | h
  · rcases hre_mem x h with h' | h'
    · rcases interList_mem h' with h'' | h''
      · exact Or.inl h''
      · exact Or.inr (Or.inl (hok.addTarget x h''))
    · rcases List.mem_map.mp h' with ⟨p, hp, hpx⟩
      exact Or.inr (Or.inl (hpx ▸ hok.skipTarget p hp))
  · exact Or.inr (Or.inr (mem_canon.mp h))

-- ---------------------------------------------------------------------------
-- Positional characterization of the first pass (for claim C6)
-- ---------------------------------------------------------------------------

/-- A pair lands in `skipped` exactly when its source sits somewhere in the
iteration, carries this rule, and the rule conflicts at its turn: the target
is already present, or already staged by the processing of the effects
before the source. -/
theorem pass1_skipped_iff (rules : List (String × String)) (cur : List String) :
    ∀ (iter : List String) (acc : Pass1) (o n : String),
      (o, n) ∈ (iter.foldl (pass1Step rules cur) acc).skipped ↔
        (o, n) ∈ acc.skipped ∨
        ∃ pre post, iter = pre ++ o :: post ∧ ruleFor rules o = some n ∧
          (n ∈ cur ∨ n ∈ (pre.foldl (pass1Step rules cur) acc).additions) := by
  intro iter
  induction iter with
  | nil =>
    intro acc o n
    simp only [List.foldl_nil]
    constructor
    · exact fun h => Or.inl h
    · rintro (h | ⟨pre, post, habs, -, -⟩)
      · exact h
      · exact absurd habs (by simp)
  | cons x iter ih =>
    intro acc o n
    rw [List.foldl_cons, ih (pass1Step rules cur acc x) o n]
    cases hx : ruleFor rules x with
    | none =>
      have hE : pass1Step rules cur acc x = acc := by simp [pass1Step, hx]
      rw [hE]
      constructor
      · rintro (h | ⟨pre, post, hdec, hrule, hcond⟩)
        · exact Or.inl h
        · refine Or.inr ⟨x :: pre, post, by rw [hdec, List.cons_append], hrule, ?_⟩
          rw [List.foldl_cons, hE]
          exact hcond
      · rintro (h | ⟨pre, post, hdec, hrule, hcond⟩)
        · exact Or.inl h
        · cases pre with
          | nil =>
            rw [List.nil_append] at hdec
            obtain ⟨hxo, hit⟩ := List.cons.inj hdec
            subst hxo
            rw [hx] at hrule
            cases hrule
          | cons y pre =>
            rw [List.cons_append] at hdec
            obtain ⟨hxy, hit⟩ := List.cons.inj hdec
            subst hxy
            refine Or.inr ⟨pre, post, hit, hrule, ?_⟩
            rw [List.foldl_cons, hE] at hcond
            exact hcond
    | some nx =>
      by_cases hacc : nx ∉ cur ∧ nx ∉ acc.additions
      · have hE : pass1Step rules cur acc x = { acc with removals := acc.removals ++ [x], additions := acc.additions ++ [nx] } := by
          simp only [pass1Step, hx]
          rw [if_pos hacc]
        constructor
        · rintro (h | ⟨pre, post, hdec, hrule, hcond⟩)
          · rw [hE] at h
            exact Or.inl h
          · refine Or.inr ⟨x :: pre, post, by rw [hdec, List.cons_append], hrule, ?_⟩
            rw [List.foldl_cons]
            exact hcond
        · rintro (h | ⟨pre, post, hdec, hrule, hcond⟩)
          · rw [hE]
            exact Or.inl h
          · cases pre with
            | nil =>
              rw [List.nil_append] at hdec
              obtain ⟨hxo, hit⟩ := List.cons.inj hdec
              subst hxo
              rw [hx] at hrule
              obtain rfl := Option.some.inj hrule
              rw [List.foldl_nil] at hcond
              exact absurd hcond (by push_neg; exact hacc)
            | cons y pre =>
              rw [List.cons_append] at hdec
              obtain ⟨hxy, hit⟩ := List.cons.inj hdec
              subst hxy
              refine Or.inr ⟨pre, post, hit, hrule, ?_⟩
              rw [List.foldl_cons] at hcond
              exact hcond
      · have hE : pass1Step rules cur acc x =
            { acc with skipped := acc.skipped ++ [(x, nx)] } := by
          simp only [pass1Step, hx]
          rw [if_neg hacc]
        rw [hE]
        constructor
        · rintro (h | ⟨pre, post, hdec, hrule, hcond⟩)
          · simp only [List.mem_append, List.mem_singleton] at h
            rcases h with h | h
            · exact Or.inl h
            · obtain ⟨rfl, rfl⟩ := Prod.mk.inj h
              refine Or.inr ⟨[], iter, rfl, hx, ?_⟩
              rw [List.foldl_nil]
              by_cases hn : n ∈ cur
              · exact Or.inl hn
              · refine Or.inr ?_
                by_contra hnin
                exact hacc ⟨hn, hnin⟩
          · refine Or.inr ⟨x :: pre, post, by rw [hdec, List.cons_append], hrule, ?_⟩
            rw [List.foldl_cons, hE]
            exact hcond
        · rintro (h | ⟨pre, post, hdec, hrule, hcond⟩)
          · exact Or.inl (List.mem_append_left _ h)
          · cases pre with
            | nil =>
              rw [List.nil_append] at hdec
              obtain ⟨hxo, hit⟩ := List.cons.inj hdec
              subst hxo
              rw [hx] at hrule
              obtain rfl := Option.some.inj hrule
              exact Or.inl (by simp)
            | cons y pre =>
              rw [List.cons_append] at hdec
              obtain ⟨hxy, hit⟩ := List.cons.inj hdec
              subst hxy
              refine Or.inr ⟨pre, post, hit, hrule, ?_⟩
              rw [List.foldl_cons, hE] at hcond
              exact hcond

/-- An effect lands in `planned_removals` exactly when it sits somewhere in
the iteration, carries a rule, and the rule is conflict-free at its turn. -/
theorem pass1_removals_iff (rules : List (String × String)) (cur : List String) :
    ∀ (iter : List String) (acc : Pass1) (o : String),
      o ∈ (iter.foldl (pass1Step rules cur) acc).removals ↔
        o ∈ acc.removals ∨
        ∃ pre post n, iter = pre ++ o :: post ∧ ruleFor rules o = some n ∧
          n ∉ cur ∧ n ∉ (pre.foldl (pass1Step rules cur) acc).additions := by
  intro iter
  induction iter with
  | nil =>
    intro acc o
    simp only [List.foldl_nil]
    constructor
    · exact fun h => Or.inl h
    · rintro (h | ⟨pre, post, n, habs, -, -⟩)
      · exact h
      · exact absurd habs (by simp)
  | cons x iter ih =>
    intro acc o
    rw [List.foldl_cons, ih (pass1Step rules cur acc x) o]
    cases hx : ruleFor rules x with
    | none =>
      have hE : pass1Step rules cur acc x = acc := by simp [pass1Step, hx]
      rw [hE]
      constructor
      · rintro (h | ⟨pre, post, n, hdec, hrule, hcond⟩)
        · exact Or.inl h
        · refine Or.inr ⟨x :: pre, post, n, by rw [hdec, List.cons_append], hrule, ?_⟩
          rw [List.foldl_cons, hE]
          exact hcond
      · rintro (h | ⟨pre, post, n, hdec, hrule, hcond⟩)
        · exact Or.inl h
        · cases pre with
          | nil =>
            rw [List.nil_append] at hdec
            obtain ⟨hxo, hit⟩ := List.cons.inj hdec
            subst hxo
            rw [hx] at hrule
            cases hrule
          | cons y pre =>
            rw [List.cons_append] at hdec
            obtain ⟨hxy, hit⟩ := List.cons.inj hdec
            subst hxy
            refine Or.inr ⟨pre, post, n, hit, hrule, ?_⟩
            rw [List.foldl_cons, hE] at hcond
            exact hcond
    | some nx =>
      by_cases hacc : nx ∉ cur ∧ nx ∉ acc.additions
      · have hE : pass1Step rules cur acc x = { acc with removals := acc.removals ++ [x], additions := acc.additions ++ [nx] } := by
          simp only [pass1Step, hx]
          rw [if_pos hacc]
        rw [hE]
        constructor
        · rintro (h | ⟨pre, post, n, hdec, hrule, hcond⟩)
          · simp only [List.mem_append, List.mem_singleton] at h
            rcases h with h | h
            · exact Or.inl h
            · subst h
              refine Or.inr ⟨[], iter, nx, rfl, hx, ?_⟩
              rw [List.foldl_nil]
              exact hacc
          · refine Or.inr ⟨x :: pre, post, n, by rw [hdec, List.cons_append], hrule, ?_⟩
            rw [List.foldl_cons, hE]
            exact hcond
        · rintro (h | ⟨pre, post, n, hdec, hrule, hcond⟩)
          · exact Or.inl (List.mem_append_left _ h)
          · cases pre with
            | nil =>
              rw [List.nil_append] at hdec
              obtain ⟨hxo, hit⟩ := List.cons.inj hdec
              subst hxo
              exact Or.inl (by simp)
            | cons y pre =>
              rw [List.cons_append] at hdec
              obtain ⟨hxy, hit⟩ := List.cons.inj hdec
              subst hxy
              refine Or.inr ⟨pre, post, n, hit, hrule, ?_⟩
              rw [List.foldl_cons, hE] at hcond
              exact hcond
      · have hE : pass1Step rules cur acc x = { acc with skipped := acc.skipped ++ [(x, nx)] } := by
          simp only [pass1Step, hx]
          rw [if_neg hacc]
        rw [hE]
        constructor
        · rintro (h | ⟨pre, post, n, hdec, hrule, hcond⟩)
          · exact Or.inl h
          · refine Or.inr ⟨x :: pre, post, n, by rw [hdec, List.cons_append], hrule, ?_⟩
            rw [List.foldl_cons, hE]
            exact hcond
        · rintro (h | ⟨pre, post, n, hdec, hrule, hcond⟩)
          · exact Or.inl h
          · cases pre with
            | nil =>
              rw [List.nil_append] at hdec
              obtain ⟨hxo, hit⟩ := List.cons.inj hdec
              subst hxo
              rw [hx] at hrule
              obtain rfl := Option.some.inj hrule
              rw [List.foldl_nil] at hcond
              exact absurd hcond (by push_neg at hacc ⊢; intro h; exact absurd (hacc h) (by simp [hcond.2]))
            | cons y pre =>
              rw [List.cons_append] at hdec
              obtain ⟨hxy, hit⟩ := List.cons.inj hdec
              subst hxy
              refine Or.inr ⟨pre, post, n, hit, hrule, ?_⟩
              rw [List.foldl_cons, hE] at hcond
              exact hcond

/-- The skipped rules are re-processed last-in-first-out: the last rule
skipped is the first one re-examined, via `reapplyStep` (which fires exactly
when the source is present and the target absent). -/
theorem reapplySkipped_concat (sk : List (String × String)) (p : String × String)
    (l : List String) :
    reapplySkipped (sk ++ [p]) l = reapplySkipped sk (reapplyStep l p) := by
  unfold reapplySkipped
  rw [List.reverse_append, List.reverse_singleton, List.singleton_append, List.foldl_cons]


-- ---------------------------------------------------------------------------
-- Lemmas about the visited dictionary and the counting measure
-- ---------------------------------------------------------------------------

theorem vLookup_nil (s : List String) : vLookup [] s = none := rfl

theorem vLookup_cons (q : List String × Nat) (v : Visited) (s : List String) :
    vLookup (q :: v) s = if q.1 = s then some q.2 else vLookup v s := by
  unfold vLookup
  cases hq : (q.1 == s) with
  | true =>
    rw [if_pos (beq_iff_eq.mp hq)]
    simp [List.find?, hq]
  | false =>
    rw [if_neg (by simpa using hq)]
    simp [List.find?, hq]

theorem vLookup_eq_none_iff {v : Visited} {s : List String} :
    vLookup v s = none ↔ s ∉ v.map Prod.fst := by
  induction v with
  | nil => simp [vLookup_nil]
  | cons q v ih =>
    rw [vLookup_cons, List.map_cons]
    by_cases hq : q.1 = s
    · rw [if_pos hq]
      simp [hq]
    · rw [if_neg hq]
      simp only [List.mem_cons, not_or, ih]
      constructor
      · exact fun h => ⟨fun he => hq he.symm, h⟩
      · exact fun h => h.2

theorem vLookup_mem {v : Visited} {s : List String} {d : Nat}
    (h : vLookup v s = some d) : (s, d) ∈ v := by
  induction v with
  | nil => cases h
  | cons q v ih =>
    rw [vLookup_cons] at h
    by_cases hq : q.1 = s
    · rw [if_pos hq] at h
      have : q = (s, d) := by
        cases q
        simp only [Prod.mk.injEq]
        exact ⟨hq, Option.some.inj h⟩
      rw [← this]
      exact List.mem_cons_self q v
    · rw [if_neg hq] at h
      exact List.mem_cons_of_mem q (ih h)

theorem vLookup_append_left {pairs v : List (List String × Nat)}
    {s : List String} {d : Nat} (hnd : (pairs.map Prod.fst).Nodup)
    (hmem : (s, d) ∈ pairs) : vLookup (pairs ++ v) s = some d := by
  induction pairs with
  | nil => cases hmem
  | cons q pairs ih =>
    rw [List.cons_append, vLookup_cons]
    rcases List.mem_cons.mp hmem with h | h
    · rw [if_pos (by rw [← h])]
      rw [← h]
    · have hq : q.1 ≠ s := by
        intro hqs
        rw [List.map_cons] at hnd
        refine (List.nodup_cons.mp hnd).1 ?_
        rw [hqs]
        exact List.mem_map_of_mem Prod.fst h
      rw [if_neg hq]
      exact ih (List.nodup_cons.mp (by rw [List.map_cons] at hnd; exact hnd)).2 h

theorem vLookup_append_right {pairs v : List (List String × Nat)}
    {s : List String} (h : s ∉ pairs.map Prod.fst) :
    vLookup (pairs ++ v) s = vLookup v s := by
  induction pairs with
  | nil => rfl
  | cons q pairs ih =>
    rw [List.map_cons] at h
    have hq1 : q.1 ≠ s := fun hq => h (List.mem_cons.mpr (Or.inl hq.symm))
    rw [List.cons_append, vLookup_cons, if_neg hq1]
    exact ih (fun hmem => h (List.mem_cons_of_mem _ hmem))

theorem vLookup_append_cases {pairs v : List (List String × Nat)}
    {s : List String} {d : Nat} (h : vLookup (pairs ++ v) s = some d) :
    (s, d) ∈ pairs ∨ vLookup v s = some d := by
  induction pairs with
  | nil => exact Or.inr h
  | cons q pairs ih =>
    rw [List.cons_append, vLookup_cons] at h
    by_cases hq : q.1 = s
    · rw [if_pos hq] at h
      refine Or.inl ?_
      have : q = (s, d) := by
        cases q
        simp only [Prod.mk.injEq]
        exact ⟨hq, Option.some.inj h⟩
      rw [← this]
      exact List.mem_cons_self q pairs
    · rw [if_neg hq] at h
      rcases ih h with h2 | h2
      · exact Or.inl (List.mem_cons_of_mem q h2)
      · exact Or.inr h2

theorem vInsert_fresh {v : Visited} {k : List String} (d : Nat)
    (h : vLookup v k = none) : vInsert v k d = (k, d) :: v := by
  unfold vInsert
  congr 1
  refine List.filter_eq_self.mpr ?_
  intro p hp
  have hnot := vLookup_eq_none_iff.mp h
  simp only [decide_eq_true_eq, beq_iff_eq]
  intro hbeq
  exact hnot (hbeq ▸ List.mem_map_of_mem Prod.fst hp)

theorem visitedSets_cons (k : List String) (d : Nat) (v : Visited) :
    visitedSets ((k, d) :: v) = insert k.toFinset (visitedSets v) := by
  simp [visitedSets]

theorem toFinset_ne_of_canon {k k' : List String} (h1 : IsCanon k)
    (h2 : IsCanon k') (hne : k ≠ k') : k.toFinset ≠ k'.toFinset := by
  intro heq
  refine hne (canon_ext h1.1 h1.2 h2.1 h2.2 ?_)
  intro a
  rw [← List.mem_toFinset, ← List.mem_toFinset, heq]

theorem unvisitedCount_insert_fresh {U : List String} {v : Visited}
    {k : List String} (d : Nat) (hU : ∀ x ∈ k, x ∈ U)
    (hfresh : ∀ p ∈ v, p.1.toFinset ≠ k.toFinset) :
    unvisitedCount U ((k, d) :: v) + 1 = unvisitedCount U v := by
  unfold unvisitedCount
  rw [visitedSets_cons]
  have hins : (U.toFinset.powerset.filter
      (fun t => t ∉ insert k.toFinset (visitedSets v)))
      = (U.toFinset.powerset.filter (fun t => t ∉ visitedSets v)).erase k.toFinset := by
    ext t
    simp only [Finset.mem_filter, Finset.mem_erase, Finset.mem_insert, not_or]
    tauto
  rw [hins]
  have hmem : k.toFinset ∈ U.toFinset.powerset.filter (fun t => t ∉ visitedSets v) := by
    refine Finset.mem_filter.mpr ⟨?_, ?_⟩
    · refine Finset.mem_powerset.mpr ?_
      intro x hx
      rw [List.mem_toFinset] at hx
      exact List.mem_toFinset.mpr (hU x hx)
    · intro hmem
      unfold visitedSets at hmem
      rw [List.mem_toFinset] at hmem
      rcases List.mem_map.mp hmem with ⟨p, hp, hpt⟩
      exact hfresh p hp hpt
  rw [Finset.card_erase_of_mem hmem]
  have := Finset.card_pos.mpr ⟨k.toFinset, hmem⟩
  omega

-- ---------------------------------------------------------------------------
-- Basic lemmas about the search loop
-- ---------------------------------------------------------------------------

/-- One unfolding of the search loop on a non-empty queue. -/
theorem bfsLoop_cons (additives : List (String × Additive)) (nested_rules : NestedRules)
    (desired_effects : List String) (max_effects max_depth : Nat)
    (cancel : Nat → Bool) (start : List String) (fuel polls : Nat)
    (cur seq : List String) (rest : List Entry) (v : Visited) :
    bfsLoop additives nested_rules desired_effects max_effects max_depth cancel start
        (fuel + 1) polls ((cur, seq) :: rest) v =
      if cancel polls then some (polls + 1, none)
      else if goalMet desired_effects cur then
        some (polls + 1, some (replay additives nested_rules max_effects start seq))
      else if max_depth ≤ seq.length then
        bfsLoop additives nested_rules desired_effects max_effects max_depth cancel start
          fuel (polls + 1) rest v
      else
        bfsLoop additives nested_rules desired_effects max_effects max_depth cancel start
          fuel (polls + 1)
          (rest ++ (expand additives nested_rules max_effects cur seq v).1)
          (expand additives nested_rules max_effects cur seq v).2 := rfl

/-- Every entry produced by the expansion fold is either carried over from
the accumulator or the application of one pool additive to the dequeued
state, recorded with the extended sequence. -/
theorem expand_fold_mem (nested_rules : NestedRules) (max_effects : Nat)
    (cur seq : List String) :
    ∀ (pool : List (String × Additive)) (acc : List Entry × Visited)
      (e : Entry), e ∈ (pool.foldl (expandStep nested_rules max_effects cur seq) acc).1 →
      e ∈ acc.1 ∨ ∃ p ∈ pool,
        e = (apply_additive cur p.1 p.2 nested_rules max_effects, seq ++ [p.1]) := by
  intro pool
  induction pool with
  | nil => intro acc e he; exact Or.inl he
  | cons p pool ih =>
    intro acc e he
    rw [List.foldl_cons] at he
    rcases ih (expandStep nested_rules max_effects cur seq acc p) e he with h | h
    · rcases hv : vLookup acc.2 (apply_additive cur p.1 p.2 nested_rules max_effects)
        with _ | d
      · simp only [expandStep, hv] at h
        simp only [List.mem_append, List.mem_singleton] at h
        rcases h with h | h
        · exact Or.inl h
        · exact Or.inr ⟨p, List.mem_cons_self p pool, h⟩
      · simp only [expandStep, hv] at h
        by_cases hlt : seq.length + 1 < d
        · rw [if_pos hlt] at h
          simp only [List.mem_append, List.mem_singleton] at h
          rcases h with h | h
          · exact Or.inl h
          · exact Or.inr ⟨p, List.mem_cons_self p pool, h⟩
        · rw [if_neg hlt] at h
          exact Or.inl h
    · rcases h with ⟨p', hp', he'⟩
      exact Or.inr ⟨p', List.mem_cons_of_mem p hp', he'⟩

theorem replay_fold_length (additives : List (String × Additive))
    (nested_rules : NestedRules) (max_effects : Nat) :
    ∀ (seq : List String) (eff : List String) (acc : List (String × List String)),
      ((seq.foldl (replayStep additives nested_rules max_effects) (eff, acc)).2).length
        = acc.length + seq.length := by
  intro seq
  induction seq with
  | nil => intro eff acc; simp
  | cons a seq ih =>
    intro eff acc
    rw [List.foldl_cons]
    show ((seq.foldl (replayStep additives nested_rules max_effects)
      (applyByName additives nested_rules max_effects eff a,
        acc ++ [(a, applyByName additives nested_rules max_effects eff a)])).2).length = _
    rw [ih]
    simp
    omega

/-- The replayed path has one step per additive of the sequence. -/
theorem replay_length (additives : List (String × Additive))
    (nested_rules : NestedRules) (max_effects : Nat) (start seq : List String) :
    (replay additives nested_rules max_effects start seq).length = seq.length := by
  unfold replay
  rw [replay_fold_length]
  simp

/-- Every effect set recorded along a replayed path is canonical and, when
the start state is within the capacity, stays within the capacity. -/
theorem replay_states (additives : List (String × Additive))
    (nested_rules : NestedRules) (max_effects : Nat) :
    ∀ (seq : List String) (eff : List String) (acc : List (String × List String)),
      IsCanon eff → eff.length ≤ max_effects →
      (∀ st ∈ acc, IsCanon st.2 ∧ st.2.length ≤ max_effects) →
      ∀ st ∈ (seq.foldl (replayStep additives nested_rules max_effects) (eff, acc)).2,
        IsCanon st.2 ∧ st.2.length ≤ max_effects := by
  intro seq
  induction seq with
  | nil => intro eff acc _ _ hacc st hst; exact hacc st hst
  | cons a seq ih =>
    intro eff acc hcan hlen hacc
    rw [List.foldl_cons]
    have hstep : IsCanon (applyByName additives nested_rules max_effects eff a) ∧
        (applyByName additives nested_rules max_effects eff a).length ≤ max_effects := by
      unfold applyByName
      cases dictFind additives a with
      | none => exact ⟨hcan, hlen⟩
      | some obj =>
        exact ⟨apply_additive_isCanon eff a obj nested_rules max_effects,
          apply_additive_length_le hcan.2 hlen a obj nested_rules⟩
    refine ih _ _ hstep.1 hstep.2 ?_
    intro st hst
    rcases List.mem_append.mp hst with h | h
    · exact hacc st h
    · rw [List.mem_singleton.mp h]
      exact hstep

/-- Any successful result of the loop is the replay of some additive
sequence no longer than the depth bound (provided all queued sequences obey
the bound, as they do from the initial queue on). -/
theorem bfsLoop_success_shape (additives : List (String × Additive))
    (nested_rules : NestedRules) (desired_effects : List String)
    (max_effects max_depth : Nat) (cancel : Nat → Bool) (start : List String) :
    ∀ (fuel polls : Nat) (q : List Entry) (v : Visited),
      (∀ e ∈ q, e.2.length ≤ max_depth) →
      ∀ k steps,
        bfsLoop additives nested_rules desired_effects max_effects max_depth cancel start
          fuel polls q v = some (k, some steps) →
        ∃ σ, σ.length ≤ max_depth ∧
          steps = replay additives nested_rules max_effects start σ := by
  intro fuel
  induction fuel with
  | zero => intro polls q v _ k steps h; cases h
  | succ fuel ih =>
    intro polls q v hq k steps h
    cases q with
    | nil =>
      rw [show bfsLoop additives nested_rules desired_effects max_effects max_depth cancel
        start (fuel + 1) polls [] v = some (polls, none) from rfl] at h
      cases Option.some.inj h
    | cons e rest =>
      obtain ⟨cur, seq⟩ := e
      rw [bfsLoop_cons] at h
      by_cases hc : cancel polls
      · rw [if_pos hc] at h
        cases (Prod.mk.inj (Option.some.inj h)).2
      · rw [if_neg hc] at h
        by_cases hg : goalMet desired_effects cur
        · rw [if_pos hg] at h
          obtain ⟨-, hsteps⟩ := Prod.mk.inj (Option.some.inj h)
          refine ⟨seq, hq (cur, seq) (List.mem_cons_self _ _),
            (Option.some.inj hsteps).symm⟩
        · rw [if_neg hg] at h
          by_cases hd : max_depth ≤ seq.length
          · rw [if_pos hd] at h
            exact ih (polls + 1) rest v
              (fun e he => hq e (List.mem_cons_of_mem _ he)) k steps h
          · rw [if_neg hd] at h
            refine ih (polls + 1) _ _ ?_ k steps h
            intro e he
            rcases List.mem_append.mp he with he | he
            · exact hq e (List.mem_cons_of_mem _ he)
            · rcases expand_fold_mem nested_rules max_effects cur seq additives ([], v) e
                he with h' | h'
              · cases h'
              · rcases h' with ⟨p, -, rfl⟩
                simp only [List.length_append, List.length_singleton]
                omega



-- ---------------------------------------------------------------------------
-- The expansion fold: full specification (for claims C4 and C9)
-- ---------------------------------------------------------------------------

theorem expandStep_fresh {nested : NestedRules} {m : Nat} {cur seq : List String}
    {acc : List Entry × Visited} {p : String × Additive}
    (hv : vLookup acc.2 (apply_additive cur p.1 p.2 nested m) = none) :
    expandStep nested m cur seq acc p
      = (acc.1 ++ [(apply_additive cur p.1 p.2 nested m, seq ++ [p.1])],
        vInsert acc.2 (apply_additive cur p.1 p.2 nested m) (seq.length + 1)) := by
  simp only [expandStep, hv]

theorem expandStep_seen {nested : NestedRules} {m : Nat} {cur seq : List String}
    {acc : List Entry × Visited} {p : String × Additive} {d : Nat}
    (hv : vLookup acc.2 (apply_additive cur p.1 p.2 nested m) = some d)
    (hge : ¬ (seq.length + 1 < d)) :
    expandStep nested m cur seq acc p = acc := by
  simp only [expandStep, hv]
  rw [if_neg hge]

/-- Specification of one frontier expansion.  Since every recorded depth is
at most `seq.length + 1`, the strictly-smaller-depth re-enqueue branch never
fires; the expansion appends one entry per unvisited resulting state, each
inserted into the visited dictionary at depth `seq.length + 1`, and after it
every pool additive's resulting state is recorded at a depth of at most
`seq.length + 1`. -/
theorem expand_fold_spec (nested : NestedRules) (m : Nat) (cur seq : List String) :
    ∀ (pool : List (String × Additive)) (news0 : List Entry) (v0 : Visited),
      (∀ s dv, vLookup v0 s = some dv → dv ≤ seq.length + 1) →
      ∃ extra : List Entry,
        (pool.foldl (expandStep nested m cur seq) (news0, v0)).1 = news0 ++ extra ∧
        (pool.foldl (expandStep nested m cur seq) (news0, v0)).2
          = (extra.map (fun e => (e.1, seq.length + 1))).reverse ++ v0 ∧
        (∀ e ∈ extra, vLookup v0 e.1 = none ∧
          ∃ p ∈ pool, e = (apply_additive cur p.1 p.2 nested m, seq ++ [p.1])) ∧
        (extra.map Prod.fst).Nodup ∧
        (∀ p ∈ pool, ∃ d',
          vLookup (pool.foldl (expandStep nested m cur seq) (news0, v0)).2
            (apply_additive cur p.1 p.2 nested m) = some d' ∧ d' ≤ seq.length + 1) := by
  intro pool
  induction pool with
  | nil =>
    intro news0 v0 hpre
    refine ⟨[], by simp, by simp, by simp, by simp, by simp⟩
  | cons p pool ih =>
    intro news0 v0 hpre
    rw [List.foldl_cons]
    rcases hv : vLookup v0 (apply_additive cur p.1 p.2 nested m) with _ | d
    · -- the resulting state is new: it is enqueued and recorded
      rw [expandStep_fresh hv, vInsert_fresh (seq.length + 1) hv]
      have hpre' : ∀ s dv,
          vLookup ((apply_additive cur p.1 p.2 nested m, seq.length + 1) :: v0) s
            = some dv → dv ≤ seq.length + 1 := by
        intro s dv hdv
        rw [vLookup_cons] at hdv
        by_cases hs : apply_additive cur p.1 p.2 nested m = s
        · rw [if_pos hs] at hdv
          exact Nat.le_of_eq (Option.some.inj hdv).symm
        · rw [if_neg hs] at hdv
          exact hpre s dv hdv
      obtain ⟨extra1, h1, h2, h3, h4, h5⟩ :=
        ih (news0 ++ [(apply_additive cur p.1 p.2 nested m, seq ++ [p.1])])
          ((apply_additive cur p.1 p.2 nested m, seq.length + 1) :: v0) hpre'
      have hfr1 : ∀ e ∈ extra1,
          apply_additive cur p.1 p.2 nested m ≠ e.1 ∧ vLookup v0 e.1 = none := by
        intro e he
        have hfr := (h3 e he).1
        rw [vLookup_cons] at hfr
        by_cases hne : apply_additive cur p.1 p.2 nested m = e.1
        · rw [if_pos hne] at hfr
          cases hfr
        · rw [if_neg hne] at hfr
          exact ⟨hne, hfr⟩
      have hkeys : apply_additive cur p.1 p.2 nested m
          ∉ ((extra1.map (fun e => (e.1, seq.length + 1))).reverse).map Prod.fst := by
        intro hmem
        rw [List.map_reverse, List.mem_reverse, List.map_map] at hmem
        rcases List.mem_map.mp hmem with ⟨e, he, hek⟩
        exact (hfr1 e he).1 hek.symm
      refine ⟨(apply_additive cur p.1 p.2 nested m, seq ++ [p.1]) :: extra1,
        ?_, ?_, ?_, ?_, ?_⟩
      · rw [h1, List.append_assoc, List.singleton_append]
      · rw [h2, List.map_cons, List.reverse_cons, List.append_assoc,
          List.singleton_append]
      · intro e he
        rcases List.mem_cons.mp he with he' | he'
        · exact ⟨by rw [he']; exact hv,
            p, List.mem_cons_self p pool, he'⟩
        · obtain ⟨hne, hfr⟩ := hfr1 e he'
          obtain ⟨-, q, hq, he''⟩ := h3 e he'
          exact ⟨hfr, q, List.mem_cons_of_mem p hq, he''⟩
      · rw [List.map_cons, List.nodup_cons]
        refine ⟨?_, h4⟩
        intro hmem
        rcases List.mem_map.mp hmem with ⟨e, he, hek⟩
        exact (hfr1 e he).1 hek.symm
      · intro q hq
        rcases List.mem_cons.mp hq with hq' | hq'
        · refine ⟨seq.length + 1, ?_, le_refl _⟩
          rw [hq']
          rw [h2, vLookup_append_right hkeys, vLookup_cons, if_pos rfl]
        · exact h5 q hq'
    · -- the resulting state was seen before at depth ≤ seq.length + 1
      have hge : ¬ (seq.length + 1 < d) := by
        have := hpre _ d hv
        omega
      rw [expandStep_seen hv hge]
      obtain ⟨extra, h1, h2, h3, h4, h5⟩ := ih news0 v0 hpre
      refine ⟨extra, h1, h2, ?_, h4, ?_⟩
      · intro e he
        obtain ⟨hfr, q, hq, he'⟩ := h3 e he
        exact ⟨hfr, q, List.mem_cons_of_mem p hq, he'⟩
      · intro q hq
        rcases List.mem_cons.mp hq with hq' | hq'
        · subst hq'
          refine ⟨d, ?_, hpre _ d hv⟩
          rw [h2]
          rw [vLookup_append_right ?_]
          · exact hv
          · intro hmem
            rw [List.map_reverse, List.mem_reverse, List.map_map] at hmem
            rcases List.mem_map.mp hmem with ⟨e, he, hek⟩
            have := (h3 e he).1
            rw [show (Prod.fst ∘ fun e : Entry => (e.1, seq.length + 1)) e = e.1
              from rfl] at hek
            rw [hek] at this
            rw [this] at hv
            cases hv
        · exact h5 q hq'

-- ---------------------------------------------------------------------------
-- The search loop invariant (for claims C4 and C9)
-- ---------------------------------------------------------------------------

theorem dictFind_mem {α : Type} {l : List (String × α)} {k : String} {b : α}
    (h : dictFind l k = some b) : (k, b) ∈ l := by
  induction l with
  | nil => cases h
  | cons q l ih =>
    unfold dictFind at h
    cases hq : (q.1 == k) with
    | true =>
      simp only [List.find?, hq] at h
      have : q = (k, b) := by
        cases q
        simp only [Prod.mk.injEq]
        exact ⟨beq_iff_eq.mp hq, Option.some.inj h⟩
      rw [← this]
      exact List.mem_cons_self q l
    | false =>
      simp only [List.find?, hq] at h
      exact List.mem_cons_of_mem q (ih h)

theorem dictFind_isSome {α : Type} {l : List (String × α)} {k : String}
    (h : k ∈ l.map Prod.fst) : ∃ b, dictFind l k = some b := by
  induction l with
  | nil => cases h
  | cons q l ih =>
    unfold dictFind
    cases hq : (q.1 == k) with
    | true => exact ⟨q.2, by simp [List.find?, hq]⟩
    | false =>
      rw [List.map_cons] at h
      rcases List.mem_cons.mp h with h' | h'
      · exact absurd (beq_iff_eq.mpr h'.symm) (by simp [hq])
      · simp only [List.find?, hq]
        exact ih h'

theorem dictFind_of_nodup {α : Type} {l : List (String × α)} {k : String} {b : α}
    (hnd : (l.map Prod.fst).Nodup) (hmem : (k, b) ∈ l) : dictFind l k = some b := by
  induction l with
  | nil => cases hmem
  | cons q l ih =>
    rw [List.map_cons] at hnd
    rcases List.mem_cons.mp hmem with h | h
    · unfold dictFind
      simp [List.find?, ← h]
    · have hq : q.1 ≠ k := by
        intro hqk
        refine (List.nodup_cons.mp hnd).1 ?_
        rw [hqk]
        exact List.mem_map_of_mem Prod.fst h
      unfold dictFind
      simp only [List.find?, show (q.1 == k) = false by simpa using hq]
      exact ih (List.nodup_cons.mp hnd).2 h

theorem applySeq_append_singleton (additives : List (String × Additive))
    (nested : NestedRules) (m : Nat) (s : List String) (σ : List String)
    (a : String) :
    applySeq additives nested m s (σ ++ [a])
      = applyByName additives nested m (applySeq additives nested m s σ) a := by
  unfold applySeq
  rw [List.foldl_append]
  rfl

/-- A state recorded strictly below the front depth is closed: it has been
dequeued, failed the goal test, and (when below the depth bound) had all its
neighbours recorded at most one level deeper. -/
theorem bfsInv_closed_of_small {additives : List (String × Additive)}
    {nested : NestedRules} {desired : List String} {m d : Nat}
    {start U : List String} {s₀ σ₀ : List String} {rest : List Entry} {v : Visited}
    (inv : BfsInv additives nested desired m d start U ((s₀, σ₀) :: rest) v)
    {s : List String} {dv : Nat} (hdv : vLookup v s = some dv)
    (hsmall : dv < σ₀.length) :
    goalMet desired s = false ∧
    (dv < d → ∀ p ∈ additives, ∃ d',
      vLookup v (apply_additive s p.1 p.2 nested m) = some d' ∧ d' ≤ dv + 1) := by
  rcases inv.closed s dv hdv with ⟨τ, hτ⟩ | h
  · exfalso
    have hlen : τ.length = dv := by
      have := (inv.entries (s, τ) hτ).2.2.1
      rw [hdv] at this
      exact (Option.some.inj this).symm
    rcases List.mem_cons.mp hτ with h' | h'
    · have h2 : τ = σ₀ := (Prod.mk.inj h').2
      rw [h2] at hlen
      omega
    · have hle := (List.pairwise_cons.mp inv.qSorted).1 (s, τ) h'
      simp only at hle
      omega
  · exact h

/-- Every additive sequence from the pool that is strictly shorter than the
front of the queue leads to a state already recorded (at a depth at most its
length) that fails the goal test. -/
theorem bfsInv_short_reach {additives : List (String × Additive)}
    {nested : NestedRules} {desired : List String} {m d : Nat}
    {start U : List String} {s₀ σ₀ : List String} {rest : List Entry} {v : Visited}
    (inv : BfsInv additives nested desired m d start U ((s₀, σ₀) :: rest) v) :
    ∀ σ : List String, (∀ a ∈ σ, a ∈ additives.map Prod.fst) →
      σ.length < σ₀.length →
      ∃ dv, vLookup v (applySeq additives nested m start σ) = some dv ∧
        dv ≤ σ.length ∧
        goalMet desired (applySeq additives nested m start σ) = false := by
  have hd0 : σ₀.length ≤ d := (inv.entries (s₀, σ₀) (List.mem_cons_self _ _)).2.2.2
  intro σ
  induction σ using List.reverseRecOn with
  | nil =>
    intro _ hlen
    refine ⟨0, inv.vStart, Nat.zero_le _, ?_⟩
    exact (bfsInv_closed_of_small inv inv.vStart (by simpa using hlen)).1
  | append_singleton σ a ih =>
    intro hvalid hlen
    rw [List.length_append, List.length_singleton] at hlen
    obtain ⟨dv, hdv, hdvle, -⟩ := ih
      (fun x hx => hvalid x (List.mem_append_left _ hx)) (by omega)
    have hsmall : dv < σ₀.length := by omega
    obtain ⟨-, hnb⟩ := bfsInv_closed_of_small inv hdv hsmall
    obtain ⟨obj, hobj⟩ := dictFind_isSome
      (hvalid a (List.mem_append_right _ (List.mem_singleton_self a)))
    obtain ⟨d2, hd2, hd2le⟩ := hnb (by omega) (a, obj) (dictFind_mem hobj)
    have happ : applySeq additives nested m start (σ ++ [a])
        = apply_additive (applySeq additives nested m start σ) a obj nested m := by
      rw [applySeq_append_singleton]
      unfold applyByName
      rw [hobj]
    refine ⟨d2, by rw [happ]; exact hd2,
      by rw [List.length_append, List.length_singleton]; omega, ?_⟩
    rw [happ]
    exact (bfsInv_closed_of_small inv hd2 (by omega)).1


/-- Dropping an unexpandable front node (depth bound reached) preserves the
invariant. -/
theorem bfsInv_drop {additives : List (String × Additive)} {nested : NestedRules}
    {desired : List String} {m d : Nat} {start U : List String}
    {s₀ σ₀ : List String} {rest : List Entry} {v : Visited}
    (inv : BfsInv additives nested desired m d start U ((s₀, σ₀) :: rest) v)
    (hgoal : goalMet desired s₀ = false) (hdepth : d ≤ σ₀.length) :
    BfsInv additives nested desired m d start U rest v := by
  refine ⟨inv.vKeysNodup, inv.vCanon, inv.vStart, ?_, ?_, ?_, ?_, ?_⟩
  · exact fun e he => inv.entries e (List.mem_cons_of_mem _ he)
  · exact (List.pairwise_cons.mp inv.qSorted).2
  · have h := inv.qStatesNodup
    rw [List.map_cons] at h
    exact (List.nodup_cons.mp h).2
  · exact fun s dv hdv e he => inv.vBound s dv hdv e (List.mem_cons_of_mem _ he)
  · intro s dv hdv
    rcases inv.closed s dv hdv with ⟨τ, hτ⟩ | h
    · rcases List.mem_cons.mp hτ with h' | h'
      · obtain ⟨hs, hτ2⟩ := Prod.mk.inj h'
        refine Or.inr ⟨by rw [hs]; exact hgoal, ?_⟩
        intro hlt
        exfalso
        have hsome := (inv.entries (s, τ) hτ).2.2.1
        rw [hdv] at hsome
        have hlen : τ.length = dv := (Option.some.inj hsome).symm
        rw [hτ2] at hlen
        omega
      · exact Or.inl ⟨τ, h'⟩
    · exact Or.inr h

/-- Expanding the front node preserves the invariant. -/
theorem bfsInv_expand {additives : List (String × Additive)} {nested : NestedRules}
    {desired : List String} {m d : Nat} {start U : List String}
    {s₀ σ₀ : List String} {rest : List Entry} {v : Visited}
    (hN : (additives.map Prod.fst).Nodup)
    (hU1 : ∀ p ∈ additives, ∀ x ∈ p.2.Effect, x ∈ U)
    (hU2 : ∀ (name t : String),
      t ∈ ((dictFind nested name).getD []).map Prod.snd → t ∈ U)
    (inv : BfsInv additives nested desired m d start U ((s₀, σ₀) :: rest) v)
    (hgoal : goalMet desired s₀ = false) (hdepth : σ₀.length < d) :
    BfsInv additives nested desired m d start U
      (rest ++ (expand additives nested m s₀ σ₀ v).1)
      (expand additives nested m s₀ σ₀ v).2 := by
  have hpre : ∀ s dv, vLookup v s = some dv → dv ≤ σ₀.length + 1 :=
    fun s dv hdv => inv.vBound s dv hdv (s₀, σ₀) (List.mem_cons_self _ _)
  obtain ⟨extra, hE1, hE2, hE3, hE4, hE5⟩ :=
    expand_fold_spec nested m s₀ σ₀ additives [] v hpre
  rw [List.nil_append] at hE1
  have hfold : additives.foldl (expandStep nested m s₀ σ₀) ([], v)
      = expand additives nested m s₀ σ₀ v := rfl
  rw [hfold] at hE1 hE2 hE5
  have hs₀ := inv.entries (s₀, σ₀) (List.mem_cons_self _ _)
  obtain ⟨hs₀seq, hs₀names, hs₀look, hs₀d⟩ := hs₀
  have hs₀canon := inv.vCanon (s₀, σ₀.length) (vLookup_mem hs₀look)
  -- keys of the inserted segment
  have hkeys : ∀ s, s ∈ ((extra.map
      (fun e : Entry => (e.1, σ₀.length + 1))).reverse).map Prod.fst ↔
      s ∈ extra.map Prod.fst := by
    intro s
    rw [List.map_reverse, List.mem_reverse, List.map_map]
    constructor
    · intro h
      rcases List.mem_map.mp h with ⟨e, he, hek⟩
      exact hek ▸ List.mem_map_of_mem Prod.fst he
    · intro h
      rcases List.mem_map.mp h with ⟨e, he, hek⟩
      exact hek ▸ List.mem_map_of_mem _ he
  have hkeysnd : (((extra.map (fun e : Entry => (e.1, σ₀.length + 1))).reverse).map
      Prod.fst).Nodup := by
    rw [List.map_reverse, List.nodup_reverse, List.map_map]
    exact hE4
  have hfreshkey : ∀ s, s ∈ extra.map Prod.fst → vLookup v s = none := by
    intro s hs
    rcases List.mem_map.mp hs with ⟨e, he, hek⟩
    exact hek ▸ (hE3 e he).1
  -- persistence of old bindings
  have hpersist : ∀ s dv, vLookup v s = some dv →
      vLookup (expand additives nested m s₀ σ₀ v).2 s = some dv := by
    intro s dv hdv
    rw [hE2, vLookup_append_right]
    · exact hdv
    · intro hmem
      rw [hkeys] at hmem
      rw [hfreshkey s hmem] at hdv
      cases hdv
  -- case analysis of new bindings
  have hcases : ∀ s dv, vLookup (expand additives nested m s₀ σ₀ v).2 s = some dv →
      (∃ e ∈ extra, e.1 = s ∧ dv = σ₀.length + 1) ∨ vLookup v s = some dv := by
    intro s dv hdv
    rw [hE2] at hdv
    rcases vLookup_append_cases hdv with h | h
    · rw [List.mem_reverse] at h
      rcases List.mem_map.mp h with ⟨e, he, hek⟩
      obtain ⟨h1, h2⟩ := Prod.mk.inj hek
      exact Or.inl ⟨e, he, h1, h2.symm⟩
    · exact Or.inr h
  -- lookups of the new entries
  have hnewlook : ∀ e ∈ extra,
      vLookup (expand additives nested m s₀ σ₀ v).2 e.1 = some (σ₀.length + 1) := by
    intro e he
    rw [hE2]
    refine vLookup_append_left hkeysnd ?_
    rw [List.mem_reverse]
    exact List.mem_map.mpr ⟨e, he, rfl⟩
  -- shape of the new entries
  have hshape : ∀ e ∈ extra, ∃ p ∈ additives,
      e = (apply_additive s₀ p.1 p.2 nested m, σ₀ ++ [p.1]) :=
    fun e he => (hE3 e he).2
  refine ⟨?_, ?_, ?_, ?_, ?_, ?_, ?_, ?_⟩
  · -- vKeysNodup
    rw [hE2, List.map_append, List.nodup_append]
    refine ⟨hkeysnd, inv.vKeysNodup, ?_⟩
    intro s hs hs'
    rw [hkeys] at hs
    exact vLookup_eq_none_iff.mp (hfreshkey s hs) hs'
  · -- vCanon
    intro p hp
    rw [hE2] at hp
    rcases List.mem_append.mp hp with hp | hp
    · rw [List.mem_reverse] at hp
      rcases List.mem_map.mp hp with ⟨e, he, hek⟩
      obtain ⟨q, hq, hq2⟩ := hshape e he
      have hp1 : p.1 = apply_additive s₀ q.1 q.2 nested m := by
        rw [← hek, hq2]
      rw [hp1]
      refine ⟨apply_additive_isCanon _ _ _ _ _, ?_⟩
      intro x hx
      rcases apply_additive_mem hs₀canon.1.2 hx with h | h | h
      · exact hs₀canon.2 x h
      · exact hU2 q.1 x h
      · exact hU1 q hq x h
    · exact inv.vCanon p hp
  · exact hpersist start 0 inv.vStart
  · -- entries
    intro e he
    rcases List.mem_append.mp he with he | he
    · obtain ⟨h1, h2, h3, h4⟩ := inv.entries e (List.mem_cons_of_mem _ he)
      exact ⟨h1, h2, hpersist e.1 e.2.length h3, h4⟩
    · rw [hE1] at he
      obtain ⟨q, hq, hq2⟩ := hshape e he
      refine ⟨?_, ?_, ?_, ?_⟩
      · rw [hq2]
        show apply_additive s₀ q.1 q.2 nested m
          = applySeq additives nested m start (σ₀ ++ [q.1])
        rw [applySeq_append_singleton, ← hs₀seq]
        unfold applyByName
        rw [dictFind_of_nodup hN hq]
      · intro a ha
        rw [hq2] at ha
        rcases List.mem_append.mp ha with ha | ha
        · exact hs₀names a ha
        · rw [List.mem_singleton.mp ha]
          exact List.mem_map_of_mem Prod.fst hq
      · have := hnewlook e he
        rw [hq2] at this ⊢
        rw [this]
        congr 1
        rw [List.length_append, List.length_singleton]
      · rw [hq2, List.length_append, List.length_singleton]
        omega
  · -- qSorted
    rw [List.pairwise_append]
    refine ⟨(List.pairwise_cons.mp inv.qSorted).2, ?_, ?_⟩
    · refine List.pairwise_of_forall_mem_list ?_
      intro e he e' he'
      obtain ⟨q, -, hq2⟩ := hshape e (hE1 ▸ he)
      obtain ⟨q', -, hq2'⟩ := hshape e' (hE1 ▸ he')
      rw [hq2, hq2']
      simp
    · intro e he e' he'
      obtain ⟨q', -, hq2'⟩ := hshape e' (hE1 ▸ he')
      have h1 := (inv.entries e (List.mem_cons_of_mem _ he)).2.2.1
      have h2 := inv.vBound e.1 e.2.length h1 (s₀, σ₀) (List.mem_cons_self _ _)
      rw [hq2', List.length_append, List.length_singleton]
      exact h2
  · -- qStatesNodup
    rw [List.map_append, List.nodup_append]
    have h := inv.qStatesNodup
    rw [List.map_cons] at h
    refine ⟨(List.nodup_cons.mp h).2, hE1 ▸ hE4, ?_⟩
    intro s hs hs'
    rcases List.mem_map.mp hs with ⟨e, he, hek⟩
    have h1 := (inv.entries e (List.mem_cons_of_mem _ he)).2.2.1
    rw [hek] at h1
    rw [hfreshkey s (hE1 ▸ hs')] at h1
    cases h1
  · -- vBound
    intro s dv hdv e he
    have hub : dv ≤ σ₀.length + 1 := by
      rcases hcases s dv hdv with ⟨e', -, -, h⟩ | h
      · omega
      · exact hpre s dv h
    rcases List.mem_append.mp he with he | he
    · have := (List.pairwise_cons.mp inv.qSorted).1 e he
      simp only at this
      omega
    · obtain ⟨q, -, hq2⟩ := hshape e (hE1 ▸ he)
      rw [hq2, List.length_append, List.length_singleton]
      omega
  · -- closed
    intro s dv hdv
    rcases hcases s dv hdv with ⟨e, he, he1, -⟩ | hold
    · refine Or.inl ⟨e.2, ?_⟩
      refine List.mem_append_right _ ?_
      rw [hE1]
      have : (s, e.2) = e := by
        cases e
        simp only [Prod.mk.injEq]
        exact ⟨he1.symm, trivial⟩
      rw [this]
      exact he
    · rcases inv.closed s dv hold with ⟨τ, hτ⟩ | hcl
      · rcases List.mem_cons.mp hτ with h' | h'
        · -- the dequeued node becomes closed
          obtain ⟨hs, hτ2⟩ := Prod.mk.inj h'
          have hdveq : dv = σ₀.length := by
            have hsome : vLookup v s = some τ.length :=
              (inv.entries (s, τ) hτ).2.2.1
            rw [hold] at hsome
            have h5 := Option.some.inj hsome
            rw [hτ2] at h5
            exact h5
          refine Or.inr ⟨by rw [hs]; exact hgoal, ?_⟩
          intro _hlt p hp
          obtain ⟨d2, hd2, hd2le⟩ := hE5 p hp
          refine ⟨d2, ?_, by omega⟩
          rw [hs]
          exact hd2
        · exact Or.inl ⟨τ, List.mem_append_left _ h'⟩
      · refine Or.inr ⟨hcl.1, ?_⟩
        intro hlt p hp
        obtain ⟨d2, hd2, hd2le⟩ := hcl.2 hlt p hp
        exact ⟨d2, hpersist _ d2 hd2, hd2le⟩

/-- The search-universe closure facts. -/
theorem searchUniverse_spec (additives : List (String × Additive))
    (nested : NestedRules) (product_effects : List String) :
    (∀ x ∈ product_effects, x ∈ searchUniverse additives nested product_effects) ∧
    (∀ p ∈ additives, ∀ x ∈ p.2.Effect,
      x ∈ searchUniverse additives nested product_effects) ∧
    (∀ (name t : String), t ∈ ((dictFind nested name).getD []).map Prod.snd →
      t ∈ searchUniverse additives nested product_effects) := by
  refine ⟨?_, ?_, ?_⟩
  · intro x hx
    unfold searchUniverse
    rw [mem_canon]
    exact List.mem_append_left _ (List.mem_append_left _ hx)
  · intro p hp x hx
    unfold searchUniverse
    rw [mem_canon]
    refine List.mem_append_left _ (List.mem_append_right _ ?_)
    exact List.mem_flatMap.mpr ⟨p, hp, hx⟩
  · intro name t ht
    unfold searchUniverse
    rw [mem_canon]
    refine List.mem_append_right _ ?_
    rcases hfind : dictFind nested name with _ | rl
    · rw [hfind] at ht
      cases ht
    · rw [hfind] at ht
      exact List.mem_flatMap.mpr ⟨(name, rl), dictFind_mem hfind, ht⟩

/-- The invariant holds at the start of the search. -/
theorem bfsInv_init (additives : List (String × Additive)) (nested : NestedRules)
    (desired : List String) (m d : Nat) (product_effects : List String) :
    BfsInv additives nested desired m d (canon product_effects)
      (searchUniverse additives nested product_effects)
      [(canon product_effects, [])] [(canon product_effects, 0)] := by
  have hsingle : ∀ (s : List String) (dv : Nat),
      vLookup [(canon product_effects, 0)] s = some dv →
      s = canon product_effects ∧ dv = 0 := by
    intro s dv h
    rw [vLookup_cons] at h
    by_cases hs : canon product_effects = s
    · rw [if_pos hs] at h
      exact ⟨hs.symm, (Option.some.inj h).symm⟩
    · rw [if_neg hs] at h
      cases h
  refine ⟨?_, ?_, ?_, ?_, ?_, ?_, ?_, ?_⟩
  · simp
  · intro p hp
    rw [List.mem_singleton.mp hp]
    refine ⟨isCanon_canon _, ?_⟩
    intro x hx
    exact (searchUniverse_spec additives nested product_effects).1 x (mem_canon.mp hx)
  · rw [vLookup_cons, if_pos rfl]
  · intro e he
    rw [List.mem_singleton.mp he]
    refine ⟨rfl, fun a ha => absurd ha (List.not_mem_nil a), ?_, Nat.zero_le d⟩
    rw [vLookup_cons, if_pos rfl]
    rfl
  · exact List.pairwise_singleton _ _
  · simp
  · intro s dv hdv e he
    obtain ⟨-, rfl⟩ := hsingle s dv hdv
    omega
  · intro s dv hdv
    obtain ⟨rfl, -⟩ := hsingle s dv hdv
    exact Or.inl ⟨[], List.mem_singleton_self _⟩



-- ---------------------------------------------------------------------------
-- Optimality and termination of the search loop (for claims C4 and C9)
-- ---------------------------------------------------------------------------

/-- Whenever the loop returns a path from an invariant-satisfying state and
the cancellation flag never reads true, the path is the replay of a valid
pool sequence reaching the goal, and no valid pool sequence reaching the
goal is shorter. -/
theorem bfsLoop_min_length {additives : List (String × Additive)}
    {nested : NestedRules} {desired : List String} {m d : Nat}
    {start U : List String}
    (hN : (additives.map Prod.fst).Nodup)
    (hU1 : ∀ p ∈ additives, ∀ x ∈ p.2.Effect, x ∈ U)
    (hU2 : ∀ (name t : String),
      t ∈ ((dictFind nested name).getD []).map Prod.snd → t ∈ U)
    (cancel : Nat → Bool) (hc : ∀ n, cancel n = false) :
    ∀ (fuel polls : Nat) (q : List Entry) (v : Visited),
      BfsInv additives nested desired m d start U q v →
      ∀ k steps,
        bfsLoop additives nested desired m d cancel start fuel polls q v
          = some (k, some steps) →
        (∃ σ0 : List String, (∀ a ∈ σ0, a ∈ additives.map Prod.fst) ∧
          goalMet desired (applySeq additives nested m start σ0) = true ∧
          steps = replay additives nested m start σ0) ∧
        (∀ σ : List String, (∀ a ∈ σ, a ∈ additives.map Prod.fst) →
          goalMet desired (applySeq additives nested m start σ) = true →
          steps.length ≤ σ.length) := by
  intro fuel
  induction fuel with
  | zero => intro polls q v _ k steps h; cases h
  | succ fuel ih =>
    intro polls q v inv k steps h
    cases q with
    | nil =>
      rw [show bfsLoop additives nested desired m d cancel start (fuel + 1) polls [] v
        = some (polls, none) from rfl] at h
      cases Option.some.inj h
    | cons e rest =>
      obtain ⟨cur, seq⟩ := e
      rw [bfsLoop_cons] at h
      rw [if_neg (by rw [hc polls]; exact Bool.false_ne_true)] at h
      cases hg : goalMet desired cur with
      | true =>
        rw [if_pos hg] at h
        obtain ⟨-, hsteps⟩ := Prod.mk.inj (Option.some.inj h)
        have hsteq : steps = replay additives nested m start seq :=
          (Option.some.inj hsteps).symm
        have hfront := inv.entries (cur, seq) (List.mem_cons_self _ _)
        have hseq : cur = applySeq additives nested m start seq := hfront.1
        have hnames : ∀ a ∈ seq, a ∈ additives.map Prod.fst := hfront.2.1
        refine ⟨⟨seq, hnames, ?_, hsteq⟩, ?_⟩
        · rw [← hseq]
          exact hg
        · intro σ hσ hσg
          by_contra hlt
          push_neg at hlt
          rw [hsteq, replay_length] at hlt
          obtain ⟨dv, -, -, hfail⟩ := bfsInv_short_reach inv σ hσ hlt
          rw [hσg] at hfail
          exact Bool.noConfusion hfail
      | false =>
        rw [if_neg (by rw [hg]; exact Bool.false_ne_true)] at h
        by_cases hd : d ≤ seq.length
        · rw [if_pos hd] at h
          exact ih (polls + 1) rest v (bfsInv_drop inv hg hd) k steps h
        · rw [if_neg hd] at h
          exact ih (polls + 1) _ _
            (bfsInv_expand hN hU1 hU2 inv hg (Nat.lt_of_not_le hd)) k steps h

/-- The number of unvisited subsets is invariant under permutation of the
visited map. -/
theorem unvisitedCount_perm {U : List String} {v w : Visited} (h : v.Perm w) :
    unvisitedCount U v = unvisitedCount U w := by
  have hs : visitedSets v = visitedSets w :=
    List.toFinset_eq_of_perm _ _ (h.map (fun p => p.1.toFinset))
  unfold unvisitedCount
  rw [hs]

/-- Prepending a block of fresh, canonical, in-universe keys to the visited
map lowers the number of unvisited subsets by exactly the block length. -/
theorem unvisitedCount_insert_list {U : List String} :
    ∀ (pairs : List (List String × Nat)) (v : Visited),
      (pairs.map Prod.fst).Nodup →
      (∀ p ∈ pairs, IsCanon p.1 ∧ (∀ x ∈ p.1, x ∈ U) ∧ vLookup v p.1 = none) →
      (∀ p ∈ v, IsCanon p.1) →
      unvisitedCount U (pairs ++ v) + pairs.length = unvisitedCount U v := by
  intro pairs
  induction pairs with
  | nil => intro v _ _ _; simp
  | cons q pairs ih =>
    intro v hnd hfresh hv
    obtain ⟨k, dd⟩ := q
    rw [List.map_cons] at hnd
    have hq : IsCanon k ∧ (∀ x ∈ k, x ∈ U) ∧ vLookup v k = none :=
      hfresh (k, dd) (List.mem_cons_self _ _)
    have hfr : ∀ p ∈ pairs ++ v, p.1.toFinset ≠ k.toFinset := by
      intro p hp
      rcases List.mem_append.mp hp with hp | hp
      · refine toFinset_ne_of_canon (hfresh p (List.mem_cons_of_mem _ hp)).1 hq.1 ?_
        intro hpk
        have hk : p.1 ∈ pairs.map Prod.fst := List.mem_map_of_mem Prod.fst hp
        rw [hpk] at hk
        exact (List.nodup_cons.mp hnd).1 hk
      · refine toFinset_ne_of_canon (hv p hp) hq.1 ?_
        intro hpk
        have hk : p.1 ∈ v.map Prod.fst := List.mem_map_of_mem Prod.fst hp
        rw [hpk] at hk
        exact vLookup_eq_none_iff.mp hq.2.2 hk
    have hins := unvisitedCount_insert_fresh dd hq.2.1 hfr
    have hih := ih v (List.nodup_cons.mp hnd).2
      (fun p hp => hfresh p (List.mem_cons_of_mem _ hp)) hv
    rw [List.cons_append, List.length_cons]
    omega

/-- With fuel exceeding the queue length plus the number of unvisited
subsets of the universe, the loop returns instead of exhausting its fuel. -/
theorem bfsLoop_total {additives : List (String × Additive)}
    {nested : NestedRules} {desired : List String} {m d : Nat}
    {start U : List String}
    (hN : (additives.map Prod.fst).Nodup)
    (hU1 : ∀ p ∈ additives, ∀ x ∈ p.2.Effect, x ∈ U)
    (hU2 : ∀ (name t : String),
      t ∈ ((dictFind nested name).getD []).map Prod.snd → t ∈ U)
    (cancel : Nat → Bool) :
    ∀ (fuel polls : Nat) (q : List Entry) (v : Visited),
      BfsInv additives nested desired m d start U q v →
      q.length + unvisitedCount U v < fuel →
      ∃ r, bfsLoop additives nested desired m d cancel start fuel polls q v = some r := by
  intro fuel
  induction fuel with
  | zero => intro polls q v _ hm; exact absurd hm (Nat.not_lt_zero _)
  | succ fuel ih =>
    intro polls q v inv hm
    cases q with
    | nil => exact ⟨(polls, none), rfl⟩
    | cons e rest =>
      obtain ⟨cur, seq⟩ := e
      rw [bfsLoop_cons]
      by_cases hcp : cancel polls = true
      · rw [if_pos hcp]
        exact ⟨_, rfl⟩
      · rw [if_neg hcp]
        cases hg : goalMet desired cur with
        | true =>
          exact ⟨_, if_pos rfl⟩
        | false =>
          rw [if_neg Bool.false_ne_true]
          rw [List.length_cons] at hm
          by_cases hd : d ≤ seq.length
          · rw [if_pos hd]
            exact ih (polls + 1) rest v (bfsInv_drop inv hg hd) (by omega)
          · rw [if_neg hd]
            have inv' := bfsInv_expand hN hU1 hU2 inv hg (Nat.lt_of_not_le hd)
            have hpre : ∀ s dv, vLookup v s = some dv → dv ≤ seq.length + 1 :=
              fun s dv hdv => inv.vBound s dv hdv (cur, seq) (List.mem_cons_self _ _)
            obtain ⟨extra, hE1, hE2, hE3, hE4, hE5⟩ :=
              expand_fold_spec nested m cur seq additives [] v hpre
            rw [List.nil_append] at hE1
            have hfold : additives.foldl (expandStep nested m cur seq) ([], v)
                = expand additives nested m cur seq v := rfl
            rw [hfold] at hE1 hE2
            have hcanonU : ∀ p ∈ (extra.map (fun e : Entry => (e.1, seq.length + 1))),
                IsCanon p.1 ∧ ∀ x ∈ p.1, x ∈ U := by
              intro p hp
              refine inv'.vCanon p ?_
              rw [hE2]
              exact List.mem_append_left _ (List.mem_reverse.mpr hp)
            have hcond : ∀ p ∈ (extra.map (fun e : Entry => (e.1, seq.length + 1))),
                IsCanon p.1 ∧ (∀ x ∈ p.1, x ∈ U) ∧ vLookup v p.1 = none := by
              intro p hp
              obtain ⟨h1, h2⟩ := hcanonU p hp
              refine ⟨h1, h2, ?_⟩
              rcases List.mem_map.mp hp with ⟨e, he, hep⟩
              have hnone := (hE3 e he).1
              rw [← hep]
              exact hnone
            have hkeysnd : (((extra.map (fun e : Entry => (e.1, seq.length + 1)))).map
                Prod.fst).Nodup := by
              rw [List.map_map]
              exact hE4
            have hlist := unvisitedCount_insert_list
              (extra.map (fun e : Entry => (e.1, seq.length + 1))) v hkeysnd hcond
              (fun p hp => (inv.vCanon p hp).1)
            rw [List.length_map] at hlist
            have hcount : unvisitedCount U (expand additives nested m cur seq v).2
                + extra.length = unvisitedCount U v := by
              rw [hE2]
              rw [unvisitedCount_perm (List.Perm.append (List.reverse_perm _)
                (List.Perm.refl v))]
              exact hlist
            have hlen : (rest ++ (expand additives nested m cur seq v).1).length
                = rest.length + extra.length := by
              rw [List.length_append, hE1]
            refine ih (polls + 1) _ _ inv' ?_
            rw [hlen]
            omega

-- ---------------------------------------------------------------------------
-- The helpers-level selection fold (for claim C8)
-- ---------------------------------------------------------------------------

theorem pickStep_no_path {products : List (String × Product)}
    {additives : List (String × Additive)} {desired : List String}
    {nested : NestedRules} {m d : Nat}
    {best : Option (String × List (String × List String) × ℚ)}
    {p : String × Product}
    (hs : (forward_effect_search p.2.Effect desired additives nested m d
      (fun _ => false)).2 = none) :
    pickStep products additives desired nested m d best p = best := by
  simp only [pickStep, hs]

theorem pickStep_first_path {products : List (String × Product)}
    {additives : List (String × Additive)} {desired : List String}
    {nested : NestedRules} {m d : Nat} {p : String × Product}
    {path : List (String × List String)}
    (hs : (forward_effect_search p.2.Effect desired additives nested m d
      (fun _ => false)).2 = some path) :
    pickStep products additives desired nested m d none p
      = some (p.1, path, calculate_path_cost p.1 path products additives) := by
  simp only [pickStep, hs]

theorem pickStep_better_path {products : List (String × Product)}
    {additives : List (String × Additive)} {desired : List String}
    {nested : NestedRules} {m d : Nat} {p : String × Product}
    {path : List (String × List String)}
    {bb : String × List (String × List String) × ℚ}
    (hs : (forward_effect_search p.2.Effect desired additives nested m d
      (fun _ => false)).2 = some path)
    (hcond : path.length < bb.2.1.length ∨
      (path.length = bb.2.1.length ∧
        calculate_path_cost p.1 path products additives < bb.2.2)) :
    pickStep products additives desired nested m d (some bb) p
      = some (p.1, path, calculate_path_cost p.1 path products additives) := by
  simp only [pickStep, hs]
  rw [if_pos hcond]

theorem pickStep_keep_best {products : List (String × Product)}
    {additives : List (String × Additive)} {desired : List String}
    {nested : NestedRules} {m d : Nat} {p : String × Product}
    {path : List (String × List String)}
    {bb : String × List (String × List String) × ℚ}
    (hs : (forward_effect_search p.2.Effect desired additives nested m d
      (fun _ => false)).2 = some path)
    (hcond : ¬ (path.length < bb.2.1.length ∨
      (path.length = bb.2.1.length ∧
        calculate_path_cost p.1 path products additives < bb.2.2))) :
    pickStep products additives desired nested m d (some bb) p = some bb := by
  simp only [pickStep, hs]
  rw [if_neg hcond]

/-- Invariant transfer for the selection fold of `pick_best_product`: over
the processed products, a `none` running best means no product solved, and a
`some` running best is a solving product whose path length, then cost, is
minimal. -/
theorem pickStep_fold_inv (products : List (String × Product))
    (additives : List (String × Additive)) (desired : List String)
    (nested : NestedRules) (m d : Nat) :
    ∀ (rest seen : List (String × Product))
      (best : Option (String × List (String × List String) × ℚ)),
      (best = none → ∀ p ∈ seen,
        (forward_effect_search p.2.Effect desired additives nested m d
          (fun _ => false)).2 = none) →
      (∀ b, best = some b →
        (∃ pd, (b.1, pd) ∈ seen ∧
          (forward_effect_search pd.Effect desired additives nested m d
            (fun _ => false)).2 = some b.2.1 ∧
          b.2.2 = calculate_path_cost b.1 b.2.1 products additives) ∧
        (∀ p ∈ seen, ∀ path',
          (forward_effect_search p.2.Effect desired additives nested m d
            (fun _ => false)).2 = some path' →
          b.2.1.length < path'.length ∨
            (b.2.1.length = path'.length ∧
              b.2.2 ≤ calculate_path_cost p.1 path' products additives))) →
      ∀ b, rest.foldl (pickStep products additives desired nested m d) best = some b →
        (∃ pd, (b.1, pd) ∈ seen ++ rest ∧
          (forward_effect_search pd.Effect desired additives nested m d
            (fun _ => false)).2 = some b.2.1 ∧
          b.2.2 = calculate_path_cost b.1 b.2.1 products additives) ∧
        (∀ p ∈ seen ++ rest, ∀ path',
          (forward_effect_search p.2.Effect desired additives nested m d
            (fun _ => false)).2 = some path' →
          b.2.1.length < path'.length ∨
            (b.2.1.length = path'.length ∧
              b.2.2 ≤ calculate_path_cost p.1 path' products additives)) := by
  intro rest
  induction rest with
  | nil =>
    intro seen best hnone hsome b hb
    rw [List.foldl_nil] at hb
    obtain ⟨h1, h2⟩ := hsome b hb
    exact ⟨by simpa using h1, by simpa using h2⟩
  | cons p rest ih =>
    intro seen best hnone hsome b hb
    rw [List.foldl_cons] at hb
    have hmain := ih (seen ++ [p])
      (pickStep products additives desired nested m d best p) ?_ ?_ b hb
    · refine ⟨?_, ?_⟩
      · obtain ⟨pd, hpd, h⟩ := hmain.1
        exact ⟨pd, by simpa [List.append_assoc] using hpd, h⟩
      · intro q hq path' hs'
        exact hmain.2 q (by simpa [List.append_assoc] using hq) path' hs'
    · -- the `none` invariant survives one step
      intro hstep q hq
      rcases hs : (forward_effect_search p.2.Effect desired additives nested m d
          (fun _ => false)).2 with _ | path
      · rw [pickStep_no_path hs] at hstep
        rcases List.mem_append.mp hq with hq | hq
        · exact hnone hstep q hq
        · rw [List.mem_singleton.mp hq]
          exact hs
      · exfalso
        cases hbest : best with
        | none =>
          rw [hbest, pickStep_first_path hs] at hstep
          cases hstep
        | some bb =>
          by_cases hcond : path.length < bb.2.1.length ∨
              (path.length = bb.2.1.length ∧
                calculate_path_cost p.1 path products additives < bb.2.2)
          · rw [hbest, pickStep_better_path hs hcond] at hstep
            cases hstep
          · rw [hbest, pickStep_keep_best hs hcond] at hstep
            cases hstep
    · -- the `some` invariant survives one step
      intro b' hstep
      rcases hs : (forward_effect_search p.2.Effect desired additives nested m d
          (fun _ => false)).2 with _ | path
      · rw [pickStep_no_path hs] at hstep
        obtain ⟨h1, h2⟩ := hsome b' hstep
        refine ⟨⟨h1.choose, List.mem_append_left _ h1.choose_spec.1,
          h1.choose_spec.2⟩, ?_⟩
        intro q hq path' hs'
        rcases List.mem_append.mp hq with hq | hq
        · exact h2 q hq path' hs'
        · rw [List.mem_singleton.mp hq] at hs'
          rw [hs] at hs'
          cases hs'
      · cases hbest : best with
        | none =>
          rw [hbest, pickStep_first_path hs] at hstep
          obtain rfl := Option.some.inj hstep
          refine ⟨⟨p.2, by simp, by simpa using hs, rfl⟩, ?_⟩
          intro q hq path' hs'
          rcases List.mem_append.mp hq with hq | hq
          · rw [hnone hbest q hq] at hs'
            cases hs'
          · have hqp := List.mem_singleton.mp hq
            rw [hqp] at hs'
            rw [hs] at hs'
            obtain rfl := Option.some.inj hs'
            rw [hqp]
            exact Or.inr ⟨rfl, le_refl _⟩
        | some bb =>
          obtain ⟨hex, hmin⟩ := hsome bb hbest
          by_cases hcond : path.length < bb.2.1.length ∨
              (path.length = bb.2.1.length ∧
                calculate_path_cost p.1 path products additives < bb.2.2)
          · rw [hbest, pickStep_better_path hs hcond] at hstep
            obtain rfl := Option.some.inj hstep
            refine ⟨⟨p.2, by simp, by simpa using hs, rfl⟩, ?_⟩
            intro q hq path' hs'
            rcases List.mem_append.mp hq with hq | hq
            · rcases hmin q hq path' hs' with hlt | ⟨heq, hle⟩
              · rcases hcond with h | ⟨heq2, -⟩
                · exact Or.inl (Nat.lt_trans h hlt)
                · exact Or.inl (heq2 ▸ hlt)
              · rcases hcond with h | ⟨heq2, hlt2⟩
                · exact Or.inl (heq ▸ h)
                · exact Or.inr ⟨heq2.trans heq, le_of_lt (lt_of_lt_of_le hlt2 hle)⟩
            · have hqp := List.mem_singleton.mp hq
              rw [hqp] at hs'
              rw [hs] at hs'
              obtain rfl := Option.some.inj hs'
              rw [hqp]
              exact Or.inr ⟨rfl, le_refl _⟩
          · rw [hbest, pickStep_keep_best hs hcond] at hstep
            obtain rfl := Option.some.inj hstep
            refine ⟨⟨hex.choose, List.mem_append_left _ hex.choose_spec.1,
              hex.choose_spec.2⟩, ?_⟩
            intro q hq path' hs'
            rcases List.mem_append.mp hq with hq | hq
            · exact hmin q hq path' hs'
            · have hqp := List.mem_singleton.mp hq
              rw [hqp] at hs'
              rw [hs] at hs'
              obtain rfl := Option.some.inj hs'
              rw [hqp]
              rcases Nat.lt_trichotomy bb.2.1.length path.length with h | h | h
              · exact Or.inl h
              · refine Or.inr ⟨h, ?_⟩
                by_contra hgt
                exact hcond (Or.inr ⟨h.symm, lt_of_not_le hgt⟩)
              · exact absurd (Or.inl h) hcond

-- ---------------------------------------------------------------------------
-- Claims
-- ---------------------------------------------------------------------------

/-- C1: a product whose base effect set already contains every desired
effect should make `unmix` succeed with an empty additive path; instead the
Python test `if not path:` treats the empty path `[]` like the no-path
signal `None`, and `unmix` returns the no-path failure.  Evaluated at the
spec's own example: product "OGKush", base effects `{"Calming"}`, desired
effects `{"Calming"}`, no cancellation. -/
theorem unmix_direct_match_returns_noPath :
    unmix (fun _ _ _ => ()) [("OGKush", ⟨["Calming"], 35⟩)] [] [] (fun _ => false)
      "OGKush" ["Calming"] = UnmixOutcome.noPath := by decide

/-- C2: if the cancellation flag reads true at the search's first poll and,
once set, stays set, `unmix` returns the cancelled outcome — even when the
product's base effects already contain every desired effect (the
cancellation check of the loop precedes the goal test). -/
theorem unmix_cancelled_before_first_poll {α : Type}
    (pricing : String → List String → List String → α)
    (products : List (String × Product)) (additives : List (String × Additive))
    (nested : NestedRules) (cancel : Nat → Bool) (name : String)
    (desired : List String) (prod : Product)
    (hprod : dictFind products name = some prod)
    (_hbase : ∀ d ∈ desired, d ∈ extract_effects prod)
    (hc0 : cancel 0 = true)
    (hmono : ∀ k, cancel k = true → cancel (k + 1) = true) :
    unmix pricing products additives nested cancel name desired
      = UnmixOutcome.cancelled := by
  have hsearch : forward_effect_search (extract_effects prod) desired additives
      nested 8 20 cancel = (1, none) := by
    unfold forward_effect_search searchFuel
    rw [bfsLoop_cons, if_pos hc0]
    rfl
  have h1 : cancel 1 = true := hmono 0 hc0
  unfold unmix
  rw [hprod]
  simp only [hsearch, h1, if_true]

theorem unmix_cancelled_before_first_poll_witness :
    (dictFind [("OGKush", (⟨["Calming"], 35⟩ : Product))] "OGKush"
        = some ⟨["Calming"], 35⟩) ∧
    (∀ d ∈ ["Calming"], d ∈ extract_effects (⟨["Calming"], 35⟩ : Product)) ∧
    unmix (fun _ _ _ => ()) [("OGKush", ⟨["Calming"], 35⟩)] [] [] (fun _ => true)
      "OGKush" ["Calming"] = UnmixOutcome.cancelled :=
  ⟨by decide, by decide,
    unmix_cancelled_before_first_poll (fun _ _ _ => ())
      [("OGKush", ⟨["Calming"], 35⟩)] [] [] (fun _ => true) "OGKush" ["Calming"]
      ⟨["Calming"], 35⟩ (by decide) (by decide) rfl (fun _ _ => rfl)⟩

/-- C3 counterexample: the additive "G" grants, in list-insertion order,
`["B", "A"]`; the current set is `{"X"}` and one slot of capacity is free
(`max_effects = 2`).  The claim predicts that the earliest grant of the
list, "B", is added; the code iterates the constructed set
`set(additive_obj.Effect)` instead (canonical order in this model) and adds
"A" while dropping "B". -/
theorem grant_insertion_order_counterexample :
    apply_additive ["X"] "G" ⟨"G", ["B", "A"], 0⟩ [] 2 = ["A", "X"] ∧
    "B" ∉ apply_additive ["X"] "G" ⟨"G", ["B", "A"], 0⟩ [] 2 := by decide

/-- C3 (amended): the unconditional grants are considered in the iteration
order of the set built from the grant list (the canonical order of this
model, not the list's insertion order); exactly the earliest grants in that
consideration order that are missing from the pre-grant effect list are
appended until `max_effects` is reached, and the later ones are skipped
silently — not queued and not retried. -/
theorem grants_earliest_in_consideration_order (cur : List String) (name : String)
    (obj : Additive) (nested : NestedRules) (m : Nat) :
    apply_additive cur name obj nested m =
      canon (preGrant cur name nested ++
        (((canon obj.Effect).filter (fun g => g ∉ preGrant cur name nested)).take
          (m - (preGrant cur name nested).length))) := by
  rw [show apply_additive cur name obj nested m
      = canon (addGrants (canon obj.Effect) m (preGrant cur name nested)) from rfl,
    addGrants_take (canon obj.Effect) (canon_nodup _) (preGrant cur name nested) m]

/-- C5: with a start state within the capacity, the transformation function
keeps every effect set it produces within `max_effects`, and every per-step
effect set of a returned path obeys the bound as well. -/
theorem effect_sets_respect_capacity (product_effects desired_effects : List String)
    (additives : List (String × Additive)) (nested : NestedRules)
    (max_effects max_depth : Nat) (cancel : Nat → Bool)
    (hstart : (canon product_effects).length ≤ max_effects) :
    (∀ (cur : List String), cur.Nodup → cur.length ≤ max_effects →
      ∀ (name : String) (obj : Additive),
        (apply_additive cur name obj nested max_effects).length ≤ max_effects) ∧
    (∀ (k : Nat) (steps : List (String × List String)),
      forward_effect_search product_effects desired_effects additives nested
        max_effects max_depth cancel = (k, some steps) →
      ∀ st ∈ steps, st.2.length ≤ max_effects) := by
  constructor
  · intro cur hnd hle name obj
    exact apply_additive_length_le hnd hle name obj nested
  · intro k steps hres st hst
    have hb : bfsLoop additives nested desired_effects max_effects max_depth cancel
        (canon product_effects) (searchFuel additives nested product_effects) 0
        [(canon product_effects, [])] [(canon product_effects, 0)]
        = some (k, some steps) := by
      unfold forward_effect_search at hres
      rcases hr : bfsLoop additives nested desired_effects max_effects max_depth cancel
          (canon product_effects) (searchFuel additives nested product_effects) 0
          [(canon product_effects, [])] [(canon product_effects, 0)] with _ | r
      · rw [hr] at hres
        cases (Prod.mk.inj hres).2
      · rw [hr] at hres
        rw [show (some r).getD (0, none) = r from rfl] at hres
        rw [hres]
    obtain ⟨σ, hσd, hsteps⟩ := bfsLoop_success_shape additives nested desired_effects
      max_effects max_depth cancel (canon product_effects) _ 0 _ _
      (by intro e he; rw [List.mem_singleton.mp he]; exact Nat.zero_le _) k steps hb
    rw [hsteps] at hst
    exact (replay_states additives nested max_effects σ (canon product_effects) []
      (isCanon_canon _) hstart (by intro st hst'; cases hst') st hst).2

theorem effect_sets_respect_capacity_witness :
    ((canon ["Calming"]).length ≤ 8) ∧
    (∀ st ∈ [("Addy", ["Calming", "Thought-Provoking"])], st.2.length ≤ 8) :=
  ⟨by decide, fun st hst =>
    (effect_sets_respect_capacity ["Calming"] ["Calming", "Thought-Provoking"]
      [("Addy", ⟨"Addy", ["Thought-Provoking"], 2⟩)] [] 8 20 (fun _ => false)
      (by decide)).2 2 [("Addy", ["Calming", "Thought-Provoking"])] (by decide) st hst⟩

/-- C6: in the first pass a replacement rule is accepted exactly when its
source is present in the iterated set and its target is neither in the
current set nor staged by the processing of the effects before it; a rule is
skipped exactly when it has such a conflict at its turn; and the skipped
rules are re-processed last-in-first-out by `reapplyStep`, which removes the
source and appends the target exactly when the source is present and the
target absent in the intermediate list. -/
theorem first_pass_acceptance_and_reverse_reapply
    (rules : List (String × String)) (cur : List String) :
    (∀ o n, (o, n) ∈ (pass1 rules cur cur).skipped ↔
      ∃ pre post, cur = pre ++ o :: post ∧ ruleFor rules o = some n ∧
        (n ∈ cur ∨ n ∈ (pass1 rules cur pre).additions)) ∧
    (∀ o, o ∈ (pass1 rules cur cur).removals ↔
      ∃ pre post n, cur = pre ++ o :: post ∧ ruleFor rules o = some n ∧
        n ∉ cur ∧ n ∉ (pass1 rules cur pre).additions) ∧
    (∀ (sk : List (String × String)) (p : String × String) (l : List String),
      reapplySkipped (sk ++ [p]) l = reapplySkipped sk (reapplyStep l p)) := by
  refine ⟨?_, ?_, reapplySkipped_concat⟩
  · intro o n
    have h := pass1_skipped_iff rules cur cur ⟨[], [], []⟩ o n
    simpa [pass1] using h
  · intro o
    have h := pass1_removals_iff rules cur cur ⟨[], [], []⟩ o
    simpa [pass1] using h

/-- C7: a returned path never exceeds `max_depth` applications, and a goal
state first reached at exactly `max_depth` steps is still returned, because
the goal test on dequeue precedes the depth test (second conjunct: a
concrete search with `max_depth = 1` whose solution needs exactly one
step). -/
theorem path_length_at_most_max_depth :
    (∀ (product_effects desired_effects : List String)
      (additives : List (String × Additive)) (nested : NestedRules)
      (max_effects max_depth : Nat) (cancel : Nat → Bool)
      (k : Nat) (steps : List (String × List String)),
      forward_effect_search product_effects desired_effects additives nested
        max_effects max_depth cancel = (k, some steps) →
      steps.length ≤ max_depth) ∧
    (forward_effect_search ["A"] ["B"] [("Addy", ⟨"Addy", ["B"], 1⟩)] [] 8 1
      (fun _ => false)).2 = some [("Addy", ["A", "B"])] := by
  constructor
  · intro product_effects desired_effects additives nested max_effects max_depth
      cancel k steps hres
    have hb : bfsLoop additives nested desired_effects max_effects max_depth cancel
        (canon product_effects) (searchFuel additives nested product_effects) 0
        [(canon product_effects, [])] [(canon product_effects, 0)]
        = some (k, some steps) := by
      unfold forward_effect_search at hres
      rcases hr : bfsLoop additives nested desired_effects max_effects max_depth cancel
          (canon product_effects) (searchFuel additives nested product_effects) 0
          [(canon product_effects, [])] [(canon product_effects, 0)] with _ | r
      · rw [hr] at hres
        cases (Prod.mk.inj hres).2
      · rw [hr] at hres
        rw [show (some r).getD (0, none) = r from rfl] at hres
        rw [hres]
    obtain ⟨σ, hσd, hsteps⟩ := bfsLoop_success_shape additives nested desired_effects
      max_effects max_depth cancel (canon product_effects) _ 0 _ _
      (by intro e he; rw [List.mem_singleton.mp he]; exact Nat.zero_le _) k steps hb
    rw [hsteps, replay_length]
    exact hσd
  · decide

theorem path_length_at_most_max_depth_witness :
    (forward_effect_search ["A"] ["B"] [("Addy", ⟨"Addy", ["B"], 1⟩)] [] 8 1
        (fun _ => false) = ((2 : Nat), some [("Addy", ["A", "B"])])) ∧
    ([("Addy", ["A", "B"])] : List (String × List String)).length ≤ 1 :=
  ⟨by decide,
    path_length_at_most_max_depth.1 ["A"] ["B"] [("Addy", ⟨"Addy", ["B"], 1⟩)] [] 8 1
      (fun _ => false) 2 [("Addy", ["A", "B"])] (by decide)⟩

/-- C10: applying an additive to a duplicate-free effect set never shrinks
it: replacements exchange one effect for one new effect and grants only
add. -/
theorem apply_additive_never_shrinks (cur : List String) (hc : cur.Nodup)
    (name : String) (obj : Additive) (nested : NestedRules) (m : Nat) :
    cur.length ≤ (apply_additive cur name obj nested m).length :=
  apply_additive_length_ge hc name obj nested m

theorem apply_additive_never_shrinks_witness :
    (["X"] : List String).Nodup ∧
    (["X"] : List String).length ≤ (apply_additive ["X"] "G" ⟨"G", ["B"], 0⟩ [] 8).length :=
  ⟨by decide, apply_additive_never_shrinks ["X"] (by decide) "G" ⟨"G", ["B"], 0⟩ [] 8⟩


/-- C8 counterexample: desired effects `{"E"}`; products P1 (base `{"A"}`,
price 10) and P2 (base `{"B"}`, price 1); additive X grants "E" at price 0.
Neither product matches directly, both solve with a one-step path, and P2's
total cost is lower — yet `ReverseLogic.pick_best_product` (cited by the
claim) returns P1, the first product examined, because its comparison is on
path length only and never re-checks cost on ties. -/
theorem reverse_pick_ignores_cost_on_ties :
    reverseLogic_pick_best_product (fun _ _ _ => ())
        [("P1", ⟨["A"], 10⟩), ("P2", ⟨["B"], 1⟩)] [("X", ⟨"X", ["E"], 0⟩)] []
        (fun _ => false) ["E"]
      = PickOutcome.success "P1" [("X", ["A", "E"])] ["A", "E"] () ∧
    (forward_effect_search ["B"] ["E"] [("X", ⟨"X", ["E"], 0⟩)] [] 8 20
        (fun _ => false)).2 = some [("X", ["B", "E"])] ∧
    (forward_effect_search ["A"] ["E"] [("X", ⟨"X", ["E"], 0⟩)] [] 8 20
        (fun _ => false)).2 = some [("X", ["A", "E"])] ∧
    calculate_path_cost "P2" [("X", ["B", "E"])]
        [("P1", ⟨["A"], 10⟩), ("P2", ⟨["B"], 1⟩)] [("X", ⟨"X", ["E"], 0⟩)]
      < calculate_path_cost "P1" [("X", ["A", "E"])]
        [("P1", ⟨["A"], 10⟩), ("P2", ⟨["B"], 1⟩)] [("X", ⟨"X", ["E"], 0⟩)] := by
  refine ⟨by decide, by decide, by decide, ?_⟩
  have h1 : calculate_path_cost "P1" [("X", ["A", "E"])]
      [("P1", (⟨["A"], 10⟩ : Product)), ("P2", ⟨["B"], 1⟩)]
      [("X", ⟨"X", ["E"], 0⟩)] = 10 + 0 := rfl
  have h2 : calculate_path_cost "P2" [("X", ["B", "E"])]
      [("P1", (⟨["A"], 10⟩ : Product)), ("P2", ⟨["B"], 1⟩)]
      [("X", ⟨"X", ["E"], 0⟩)] = 1 + 0 := rfl
  rw [h1, h2]
  norm_num

/-- C8 (amended): the helpers-level `pick_best_product` selects, among the
products whose search yields a path, one with a shortest path, and among
those tied on the shortest length one with the lowest total cost (base
price plus the additive prices along the path, per `calculate_path_cost`);
`ReverseLogic.pick_best_product` compares path length only and keeps the
earliest-iterated product on ties, regardless of cost. -/
theorem pick_best_shortest_then_cheapest
    (products : List (String × Product)) (additives : List (String × Additive))
    (desired : List String) (nested : NestedRules) (m d : Nat)
    (b : String × List (String × List String) × ℚ)
    (hres : pick_best_product products additives desired nested m d = some b) :
    (∃ pd, (b.1, pd) ∈ products ∧
      (forward_effect_search pd.Effect desired additives nested m d
        (fun _ => false)).2 = some b.2.1 ∧
      b.2.2 = calculate_path_cost b.1 b.2.1 products additives) ∧
    (∀ p ∈ products, ∀ path',
      (forward_effect_search p.2.Effect desired additives nested m d
        (fun _ => false)).2 = some path' →
      b.2.1.length < path'.length ∨
        (b.2.1.length = path'.length ∧
          b.2.2 ≤ calculate_path_cost p.1 path' products additives)) := by
  unfold pick_best_product at hres
  have h := pickStep_fold_inv products additives desired nested m d products [] none
    (fun _ p hp => absurd hp (List.not_mem_nil p))
    (fun b hb => Option.noConfusion hb) b hres
  exact ⟨by simpa using h.1, by simpa using h.2⟩

theorem pick_best_shortest_then_cheapest_witness :
    (∃ pd, ("P1", pd) ∈ [("P1", (⟨["A"], 10⟩ : Product))] ∧
      (forward_effect_search pd.Effect ["E"] [("X", ⟨"X", ["E"], 0⟩)] [] 8 40
        (fun _ => false)).2 = some [("X", ["A", "E"])] ∧
      calculate_path_cost "P1" [("X", ["A", "E"])] [("P1", ⟨["A"], 10⟩)]
          [("X", ⟨"X", ["E"], 0⟩)]
        = calculate_path_cost "P1" [("X", ["A", "E"])] [("P1", ⟨["A"], 10⟩)]
          [("X", ⟨"X", ["E"], 0⟩)]) ∧
    (∀ p ∈ [("P1", (⟨["A"], 10⟩ : Product))], ∀ path',
      (forward_effect_search p.2.Effect ["E"] [("X", ⟨"X", ["E"], 0⟩)] [] 8 40
        (fun _ => false)).2 = some path' →
      ([("X", ["A", "E"])] : List (String × List String)).length < path'.length ∨
        (([("X", ["A", "E"])] : List (String × List String)).length = path'.length ∧
          calculate_path_cost "P1" [("X", ["A", "E"])] [("P1", ⟨["A"], 10⟩)]
            [("X", ⟨"X", ["E"], 0⟩)]
          ≤ calculate_path_cost p.1 path' [("P1", ⟨["A"], 10⟩)]
            [("X", ⟨"X", ["E"], 0⟩)])) :=
  pick_best_shortest_then_cheapest [("P1", ⟨["A"], 10⟩)] [("X", ⟨"X", ["E"], 0⟩)]
    ["E"] [] 8 40
    ("P1", [("X", ["A", "E"])],
      calculate_path_cost "P1" [("X", ["A", "E"])] [("P1", ⟨["A"], 10⟩)]
        [("X", ⟨"X", ["E"], 0⟩)]) rfl


/-- C4: when the cancellation flag never reads true and the pool's additive
names are distinct, a path returned by `forward_effect_search` is the replay
of a sequence of pool additives whose application transforms the start set
into a superset of the desired set, of the same length as the path, and no
sequence of pool additives achieving the desired set is strictly shorter
than the returned path: the returned length is the minimum number of
additive applications needed. -/
theorem returned_path_is_shortest
    (product_effects desired_effects : List String)
    (additives : List (String × Additive)) (nested : NestedRules)
    (m d : Nat) (cancel : Nat → Bool)
    (hN : (additives.map Prod.fst).Nodup)
    (hc : ∀ n, cancel n = false)
    (k : Nat) (steps : List (String × List String))
    (hres : forward_effect_search product_effects desired_effects additives nested
      m d cancel = (k, some steps)) :
    (∃ σ0 : List String, (∀ a ∈ σ0, a ∈ additives.map Prod.fst) ∧
      goalMet desired_effects
        (applySeq additives nested m (canon product_effects) σ0) = true ∧
      steps = replay additives nested m (canon product_effects) σ0 ∧
      σ0.length = steps.length) ∧
    (∀ σ : List String, (∀ a ∈ σ, a ∈ additives.map Prod.fst) →
      goalMet desired_effects
        (applySeq additives nested m (canon product_effects) σ) = true →
      steps.length ≤ σ.length) := by
  have hb : bfsLoop additives nested desired_effects m d cancel
      (canon product_effects) (searchFuel additives nested product_effects) 0
      [(canon product_effects, [])] [(canon product_effects, 0)]
      = some (k, some steps) := by
    unfold forward_effect_search at hres
    rcases hr : bfsLoop additives nested desired_effects m d cancel
        (canon product_effects) (searchFuel additives nested product_effects) 0
        [(canon product_effects, [])] [(canon product_effects, 0)] with _ | r
    · rw [hr] at hres
      cases (Prod.mk.inj hres).2
    · rw [hr] at hres
      rw [show (some r).getD (0, none) = r from rfl] at hres
      rw [hres]
  have hspec := searchUniverse_spec additives nested product_effects
  obtain ⟨⟨σ0, h1, h2, h3⟩, h4⟩ := bfsLoop_min_length hN hspec.2.1 hspec.2.2
    cancel hc (searchFuel additives nested product_effects) 0
    [(canon product_effects, [])] [(canon product_effects, 0)]
    (bfsInv_init additives nested desired_effects m d product_effects) k steps hb
  refine ⟨⟨σ0, h1, h2, h3, ?_⟩, h4⟩
  rw [h3, replay_length]

theorem returned_path_is_shortest_witness :
    (([("Addy", (⟨"Addy", ["B"], 1⟩ : Additive))].map Prod.fst).Nodup) ∧
    (∀ σ : List String,
      (∀ a ∈ σ, a ∈ [("Addy", (⟨"Addy", ["B"], 1⟩ : Additive))].map Prod.fst) →
      goalMet ["B"] (applySeq [("Addy", ⟨"Addy", ["B"], 1⟩)] [] 8
        (canon ["A"]) σ) = true →
      ([("Addy", ["A", "B"])] : List (String × List String)).length ≤ σ.length) :=
  ⟨by decide,
    (returned_path_is_shortest ["A"] ["B"] [("Addy", ⟨"Addy", ["B"], 1⟩)] [] 8 1
      (fun _ => false) (by decide) (fun _ => rfl) 2 [("Addy", ["A", "B"])]
      (by decide)).2⟩

/-- C9: for every finite pool with distinct additive names, rule mapping,
depth bound and capacity, the search terminates: the fuel `searchFuel` —
one more than the number of subsets of the effect universe — always
suffices, so the loop returns a result instead of running forever, and
`forward_effect_search` equals that result. -/
theorem forward_effect_search_terminates
    (product_effects desired_effects : List String)
    (additives : List (String × Additive)) (nested : NestedRules)
    (m d : Nat) (cancel : Nat → Bool)
    (hN : (additives.map Prod.fst).Nodup) :
    ∃ r, bfsLoop additives nested desired_effects m d cancel
        (canon product_effects) (searchFuel additives nested product_effects) 0
        [(canon product_effects, [])] [(canon product_effects, 0)] = some r ∧
      forward_effect_search product_effects desired_effects additives nested m d
        cancel = r := by
  have hspec := searchUniverse_spec additives nested product_effects
  have hmem_pow : (canon product_effects).toFinset
      ∈ (searchUniverse additives nested product_effects).toFinset.powerset := by
    refine Finset.mem_powerset.mpr ?_
    intro x hx
    rw [List.mem_toFinset] at hx ⊢
    exact hspec.1 x (mem_canon.mp hx)
  have hmem_vis : (canon product_effects).toFinset
      ∈ visitedSets [(canon product_effects, 0)] := by
    simp [visitedSets]
  have hss : ((searchUniverse additives nested product_effects).toFinset.powerset.filter
        (fun t => t ∉ visitedSets [(canon product_effects, 0)]))
      ⊂ (searchUniverse additives nested product_effects).toFinset.powerset := by
    refine (Finset.ssubset_iff_of_subset (Finset.filter_subset _ _)).mpr ?_
    exact ⟨(canon product_effects).toFinset, hmem_pow,
      fun hmem => (Finset.mem_filter.mp hmem).2 hmem_vis⟩
  have h1 : unvisitedCount (searchUniverse additives nested product_effects)
      [(canon product_effects, 0)]
      < 2 ^ (searchUniverse additives nested product_effects).toFinset.card := by
    have h := Finset.card_lt_card hss
    rw [Finset.card_powerset] at h
    exact h
  have h2 : 2 ^ (searchUniverse additives nested product_effects).toFinset.card
      ≤ 2 ^ (searchUniverse additives nested product_effects).length :=
    Nat.pow_le_pow_right (by omega) (List.toFinset_card_le _)
  have hmeas : ([(canon product_effects, [])] : List Entry).length
      + unvisitedCount (searchUniverse additives nested product_effects)
        [(canon product_effects, 0)]
      < searchFuel additives nested product_effects := by
    unfold searchFuel
    rw [List.length_singleton]
    omega
  obtain ⟨r, hr⟩ := bfsLoop_total hN hspec.2.1 hspec.2.2 cancel
    (searchFuel additives nested product_effects) 0
    [(canon product_effects, [])] [(canon product_effects, 0)]
    (bfsInv_init additives nested desired_effects m d product_effects) hmeas
  refine ⟨r, hr, ?_⟩
  unfold forward_effect_search
  rw [hr]
  rfl

theorem forward_effect_search_terminates_witness :
    (([("Addy", (⟨"Addy", ["B"], 1⟩ : Additive))].map Prod.fst).Nodup) ∧
    (∃ r, bfsLoop [("Addy", ⟨"Addy", ["B"], 1⟩)] [] ["B"] 8 1 (fun _ => false)
        (canon ["A"]) (searchFuel [("Addy", ⟨"Addy", ["B"], 1⟩)] [] ["A"]) 0
        [(canon ["A"], [])] [(canon ["A"], 0)] = some r ∧
      forward_effect_search ["A"] ["B"] [("Addy", ⟨"Addy", ["B"], 1⟩)] [] 8 1
        (fun _ => false) = r) :=
  ⟨by decide,
    forward_effect_search_terminates ["A"] ["B"] [("Addy", ⟨"Addy", ["B"], 1⟩)]
      [] 8 1 (fun _ => false) (by decide)⟩

end Schedule1
